import Mathlib

/-!
Verification of the grammatica grammar-expression library (C sources).

The repository contains the same design implemented twice:

* family A, under src/c/src/grammar/ (types GrammaticaGrammar,
  GrammaticaQuantifier with max = 0 meaning infinity, character ranges over
  uint32_t code points);
* family B, under src/c/src/ directly (types Grammar, Quantifier with
  upper = -1 meaning infinity, character ranges over char, i.e. bytes).

Both are embedded below.  C strings are modelled as lists of byte values
(a C string cannot contain the NUL byte, so an embedded value never
contains 0; where the code builds a string from a possibly-NUL character
the embedding reproduces the truncation).  NULL results of render and
simplify stand for the empty outcome and are modelled with Option.
-/

namespace Spec2Proof

/-- Byte values of an ASCII string literal, used to state expected outputs. -/
def strBytes (s : String) : List Nat := s.data.map Char.toNat

/-! ## Character escaping policy

The always-safe / shorthand / context escape predicates are declared in
include/grammatica/constants.h and exercised by src/c/src/constants_test.c,
but their implementation file is not among the sources; src/c/src/constants.c
implements the identical policy under the names char_is_always_safe,
char_get_escape, char_is_string_literal_escape and char_is_range_escape.
The definitions below follow spec section 4.2 and agree with constants.c
and with every expectation in constants_test.c. -/

/-- Digits 0-9, as in constants.c char_is_digit. -/
def char_is_digit (c : Nat) : Bool := 48 ≤ c && c ≤ 57

/-- ASCII letters, as in constants.c char_is_ascii_letter. -/
def char_is_ascii_letter (c : Nat) : Bool :=
  (97 ≤ c && c ≤ 122) || (65 ≤ c && c ≤ 90)

/-- The fixed punctuation set of constants.c (PUNCTUATION), by byte value. -/
def PUNCTUATION : List Nat :=
  [33, 35, 36, 37, 38, 39, 40, 41, 42, 43, 44, 45, 46, 47, 58, 59, 60, 61,
   62, 63, 64, 91, 93, 94, 95, 96, 123, 124, 125, 126]

/-- Membership in the punctuation set, constants.c char_is_punctuation. -/
def char_is_punctuation (c : Nat) : Bool := PUNCTUATION.contains c

/-- The space character, constants.c char_is_space. -/
def char_is_space (c : Nat) : Bool := c == 32

/-- Modelled from the spec: the implementation of the declared
grammaticaIsAlwaysSafeChar is absent from the sources; spec section 4.2
(always-safe set: ASCII letters, digits, space and the fixed punctuation
set) and constants.c char_is_always_safe pin it down. -/
def grammaticaIsAlwaysSafeChar (c : Nat) : Bool :=
  char_is_digit c || char_is_ascii_letter c || char_is_punctuation c ||
    char_is_space c

/-- Modelled from the spec: control shorthands, newline, carriage return and
tab become the two-character escapes; matches constants.c char_get_escape. -/
def grammaticaGetCharEscape (c : Nat) : Option (List Nat) :=
  if c = 10 then some [92, 110]
  else if c = 13 then some [92, 114]
  else if c = 9 then some [92, 116]
  else none

/-- Modelled from the spec: string-literal context escapes, double quote and
backslash; matches constants.c char_is_string_literal_escape. -/
def grammaticaIsStringLiteralEscapeChar (c : Nat) : Bool := c == 34 || c == 92

/-- Modelled from the spec: range context escapes, caret, dash, brackets and
backslash; matches constants.c char_is_range_escape. -/
def grammaticaIsRangeEscapeChar (c : Nat) : Bool :=
  c == 94 || c == 45 || c == 91 || c == 93 || c == 92

/-- One uppercase hexadecimal digit. -/
def hexDigitUpper (n : Nat) : Nat := if n < 10 then 48 + n else 55 + n

/-- Big-endian uppercase hexadecimal digits, with explicit fuel so that the
recursion is structural (the fuel argument strictly bounds the number of
digits whenever it is at least the value, as in hexDigits below). -/
def hexDigitsAux : Nat → Nat → List Nat
  | 0, n => [hexDigitUpper (n % 16)]
  | fuel + 1, n =>
    if n < 16 then [hexDigitUpper n]
    else hexDigitsAux fuel (n / 16) ++ [hexDigitUpper (n % 16)]

/-- Big-endian uppercase hexadecimal digits of a number (at least one). -/
def hexDigits (n : Nat) : List Nat := hexDigitsAux n n

/-- Grammatica_charToHex / Grammatica_ordToHex of src/c/src/utils.c:
backslash x followed by the uppercase hex digits, zero padded to width two
(snprintf with a 02X conversion widens naturally above one byte). -/
def Grammatica_charToHex (c : Nat) : List Nat :=
  [92, 120] ++ (if c < 16 then [48] else []) ++ hexDigits c

/-! ## Family A data model (src/c/src/grammar/) -/

/-- 2 to the 32nd power; family A range endpoints are uint32_t values and
the merge pass computes end + 1 in uint32_t arithmetic. -/
def U32 : Nat := 4294967296

/-- GrammaticaQuantifier of grammar/base.h: min and max are uint32_t and
max = 0 means infinity. -/
structure GrammaticaQuantifier where
  min : Nat
  max : Nat
deriving DecidableEq, Repr

/-- GrammaticaCharRangeEntry of grammar/char_range.h: an inclusive interval
of uint32_t code points.  The C field named end is called stop here because
end is a reserved word in Lean. -/
structure GrammaticaCharRangeEntry where
  start : Nat
  stop : Nat
deriving DecidableEq, Repr

/-- The family A grammar tree (grammar/base.h tagged variants).  The
constructor named grammar is the Sequence/AND variant
(GRAMMATICA_TYPE_GRAMMAR); or is GRAMMATICA_TYPE_OR. -/
inductive GrammaticaGrammar where
  | string (value : List Nat)
  | charRange (ranges : List GrammaticaCharRangeEntry) (negate : Bool)
  | derivationRule (symbol : List Nat) (value : GrammaticaGrammar)
  | grammar (subexprs : List GrammaticaGrammar)
      (quantifier : GrammaticaQuantifier)
  | or (subexprs : List GrammaticaGrammar) (quantifier : GrammaticaQuantifier)

mutual

/-- grammaticaGrammarEquals of grammar/base.c together with the per-kind
equals functions it dispatches to: same variant tag, recursively equal
payloads; the check_quantifier flag controls whether Sequence and Choice
quantifiers participate. -/
def grammaticaGrammarEquals : GrammaticaGrammar → GrammaticaGrammar →
    Bool → Bool
  | .string v1, .string v2, _ => v1 == v2
  | .charRange r1 n1, .charRange r2 n2, _ => n1 == n2 && r1 == r2
  | .derivationRule s1 v1, .derivationRule s2 v2, cq =>
    s1 == s2 && grammaticaGrammarEquals v1 v2 cq
  | .grammar c1 q1, .grammar c2 q2, cq =>
    (!cq || (q1.min == q2.min && q1.max == q2.max)) &&
      grammaticaEqualsList c1 c2 cq
  | .or c1 q1, .or c2 q2, cq =>
    (!cq || (q1.min == q2.min && q1.max == q2.max)) &&
      grammaticaEqualsList c1 c2 cq
  | _, _, _ => false

/-- Index-wise comparison of the subexpression arrays in
grouped_equals_common (unequal lengths compare false). -/
def grammaticaEqualsList : List GrammaticaGrammar → List GrammaticaGrammar →
    Bool → Bool
  | [], [], _ => true
  | a :: as, b :: bs, cq =>
    grammaticaGrammarEquals a b cq && grammaticaEqualsList as bs cq
  | _, _, _ => false

end

mutual

theorem grammaticaGrammarEquals_true_iff (a b : GrammaticaGrammar) :
    grammaticaGrammarEquals a b true = true ↔ a = b := by
  cases a with
  | string v1 =>
    cases b <;> simp [grammaticaGrammarEquals]
  | charRange r1 n1 =>
    cases b <;> simp [grammaticaGrammarEquals, and_comm]
  | derivationRule s1 v1 =>
    cases b with
    | derivationRule s2 v2 =>
      simp [grammaticaGrammarEquals,
        grammaticaGrammarEquals_true_iff v1 v2]
    | string _ => simp [grammaticaGrammarEquals]
    | charRange _ _ => simp [grammaticaGrammarEquals]
    | grammar _ _ => simp [grammaticaGrammarEquals]
    | or _ _ => simp [grammaticaGrammarEquals]
  | grammar c1 q1 =>
    cases b with
    | grammar c2 q2 =>
      simp [grammaticaGrammarEquals, grammaticaEqualsList_true_iff c1 c2]
      constructor
      · rintro ⟨⟨h1, h2⟩, h3⟩
        exact ⟨h3, by cases q1; cases q2; simp_all⟩
      · rintro ⟨h3, h2⟩
        exact ⟨by cases q1; cases q2; simp_all, h3⟩
    | string _ => simp [grammaticaGrammarEquals]
    | charRange _ _ => simp [grammaticaGrammarEquals]
    | derivationRule _ _ => simp [grammaticaGrammarEquals]
    | or _ _ => simp [grammaticaGrammarEquals]
  | or c1 q1 =>
    cases b with
    | or c2 q2 =>
      simp [grammaticaGrammarEquals, grammaticaEqualsList_true_iff c1 c2]
      constructor
      · rintro ⟨⟨h1, h2⟩, h3⟩
        exact ⟨h3, by cases q1; cases q2; simp_all⟩
      · rintro ⟨h3, h2⟩
        exact ⟨by cases q1; cases q2; simp_all, h3⟩
    | string _ => simp [grammaticaGrammarEquals]
    | charRange _ _ => simp [grammaticaGrammarEquals]
    | derivationRule _ _ => simp [grammaticaGrammarEquals]
    | grammar _ _ => simp [grammaticaGrammarEquals]

theorem grammaticaEqualsList_true_iff (l1 l2 : List GrammaticaGrammar) :
    grammaticaEqualsList l1 l2 true = true ↔ l1 = l2 := by
  match l1, l2 with
  | [], [] => simp [grammaticaEqualsList]
  | [], _ :: _ => simp [grammaticaEqualsList]
  | _ :: _, [] => simp [grammaticaEqualsList]
  | a :: as, b :: bs =>
    simp [grammaticaEqualsList, grammaticaGrammarEquals_true_iff a b,
      grammaticaEqualsList_true_iff as bs]

end

instance : DecidableEq GrammaticaGrammar := fun a b =>
  decidable_of_iff _ (grammaticaGrammarEquals_true_iff a b)

/-- Ordering used by compare_range_entries in grammar/char_range.c: entries
are ordered by start only. -/
def rangeLe (a b : GrammaticaCharRangeEntry) : Prop := a.start ≤ b.start

instance : DecidableRel rangeLe := fun a b => Nat.decLe a.start b.start

instance : IsTotal GrammaticaCharRangeEntry rangeLe :=
  ⟨fun a b => Nat.le_total a.start b.start⟩

instance : IsTrans GrammaticaCharRangeEntry rangeLe :=
  ⟨fun _ _ _ hab hbc => Nat.le_trans hab hbc⟩

/-- The merge sweep of merge_ranges (grammar/char_range.c lines 62-78),
run on the sorted tail with the first sorted entry as the running entry.
The overlap-or-adjacency test computes end + 1 in uint32_t arithmetic,
hence the modulus. -/
def mergeSweep (cur : GrammaticaCharRangeEntry) :
    List GrammaticaCharRangeEntry → List GrammaticaCharRangeEntry
  | [] => [cur]
  | e :: rest =>
    if e.start ≤ (cur.stop + 1) % U32 then
      mergeSweep ⟨cur.start, if cur.stop < e.stop then e.stop else cur.stop⟩
        rest
    else
      cur :: mergeSweep e rest

/-- merge_ranges of grammar/char_range.c: lists of length at most one are
returned unchanged; otherwise sort by start (qsort with
compare_range_entries; the sweep result does not depend on how ties are
ordered, which theorem c1 below makes precise) and sweep once. -/
def merge_ranges (l : List GrammaticaCharRangeEntry) :
    List GrammaticaCharRangeEntry :=
  if l.length ≤ 1 then l
  else
    match List.insertionSort rangeLe l with
    | [] => []
    | h :: t => mergeSweep h t

/-- grammaticaCharRangeCreate of grammar/char_range.c: reject an empty
entry list and any entry with end before start, then store the merged
entries together with the negate flag. -/
def grammaticaCharRangeCreate (ranges : List GrammaticaCharRangeEntry)
    (negate : Bool) : Option GrammaticaGrammar :=
  if ranges = [] then none
  else if ranges.all (fun e => e.start ≤ e.stop) then
    some (.charRange (merge_ranges ranges) negate)
  else none

/-- grammaticaValidateQuantifier of grammar/base.c: max = 0 means infinity;
a present max must be at least one (vacuous for unsigned values) and at
least min. -/
def grammaticaValidateQuantifier (q : GrammaticaQuantifier) : Bool :=
  if q.max ≠ 0 && q.max < 1 then false
  else if q.max ≠ 0 && q.min > q.max then false
  else true

/-- grammaticaGrammarCreate of grammar/grammar.c: validate the quantifier
and store the subexpression list (possibly empty) unchanged. -/
def grammaticaGrammarCreate (subexprs : List GrammaticaGrammar)
    (quantifier : GrammaticaQuantifier) : Option GrammaticaGrammar :=
  if grammaticaValidateQuantifier quantifier then
    some (.grammar subexprs quantifier)
  else none

/-- grammaticaOrCreate of grammar/grammar.c. -/
def grammaticaOrCreate (subexprs : List GrammaticaGrammar)
    (quantifier : GrammaticaQuantifier) : Option GrammaticaGrammar :=
  if grammaticaValidateQuantifier quantifier then
    some (.or subexprs quantifier)
  else none

/-- Decimal digits of a uint32_t value as printed by snprintf %u. -/
def natBytes (n : Nat) : List Nat := strBytes (Nat.repr n)

/-- grammaticaRenderQuantifier of grammar/base.c.  Byte 42 is the star,
63 the question mark, 43 the plus, 123/125 the braces, 44 the comma. -/
def grammaticaRenderQuantifier (q : GrammaticaQuantifier) :
    Option (List Nat) :=
  if q.min = 1 ∧ q.max = 1 then none
  else if q.min = 0 ∧ q.max = 0 then some [42]
  else if q.min = 0 ∧ q.max = 1 then some [63]
  else if q.min = 1 ∧ q.max = 0 then some [43]
  else if q.min = q.max then some ([123] ++ natBytes q.min ++ [125])
  else if q.max = 0 then some ([123] ++ natBytes q.min ++ [44, 125])
  else some ([123] ++ natBytes q.min ++ [44] ++ natBytes q.max ++ [125])

/-- Whether a node is of the grouped kind (GRAMMATICA_TYPE_GRAMMAR or
GRAMMATICA_TYPE_OR), as tested by needs_wrapped_grammar and
needs_wrapped_or. -/
def isGrouped : GrammaticaGrammar → Bool
  | .grammar _ _ => true
  | .or _ _ => true
  | _ => false

/-- needs_wrapped_grammar of grammar/grammar.c (Sequence wrapping). -/
def needs_wrapped_grammar (subexprs : List GrammaticaGrammar)
    (q : GrammaticaQuantifier) : Bool :=
  match subexprs with
  | [] => false
  | [s] =>
    if q.min == 1 && q.max == 1 then false
    else if !isGrouped s then false
    else q.min != 1 || q.max != 1
  | _ => q.min != 1 || q.max != 1

/-- needs_wrapped_or of grammar/grammar.c (Choice wrapping): identical to
the Sequence rule for at most one subexpression, but unconditionally true
for more than one. -/
def needs_wrapped_or (subexprs : List GrammaticaGrammar)
    (q : GrammaticaQuantifier) : Bool :=
  match subexprs with
  | [] => false
  | [s] =>
    if q.min == 1 && q.max == 1 then false
    else if !isGrouped s then false
    else true
  | _ => true

/-- Join non-empty rendered parts with a separator, as the render loop of
grouped_render_common does. -/
def joinSep (sep : List Nat) : List (List Nat) → List Nat
  | [] => []
  | [x] => x
  | x :: xs => x ++ sep ++ joinSep sep xs

/-- Escaping of one character of a StringLiteral value, inlined in
string_render (grammar/string.c lines 77-97): always-safe passthrough
first, then control shorthand, then the string-literal escapes, then hex. -/
def string_render_char (c : Nat) : List Nat :=
  if grammaticaIsAlwaysSafeChar c then [c]
  else
    match grammaticaGetCharEscape c with
    | some esc => esc
    | none =>
      if grammaticaIsStringLiteralEscapeChar c then [92, c]
      else Grammatica_charToHex c

/-- escape_char_for_range of grammar/char_range.c lines 15-32: the range
escape set first, then always-safe passthrough, then control shorthand,
then hex. -/
def escape_char_for_range (c : Nat) : List Nat :=
  if grammaticaIsRangeEscapeChar c then [92, c]
  else if grammaticaIsAlwaysSafeChar c then [c]
  else
    match grammaticaGetCharEscape c with
    | some esc => esc
    | none => Grammatica_charToHex c

/-- string_render of grammar/string.c: the empty value renders empty,
otherwise the escaped characters between double quotes (byte 34). -/
def string_render (value : List Nat) : Option (List Nat) :=
  if value = [] then none
  else some ([34] ++ value.flatMap string_render_char ++ [34])

/-- One canonical entry of a CharRange rendering (char_range_render loop):
a single character, an adjacent pair without separator, or a dash-separated
pair; the adjacency test computes start + 1 in uint32_t arithmetic. -/
def char_range_render_entry (e : GrammaticaCharRangeEntry) : List Nat :=
  if e.start = e.stop then escape_char_for_range e.start
  else if e.stop = (e.start + 1) % U32 then
    escape_char_for_range e.start ++ escape_char_for_range e.stop
  else
    escape_char_for_range e.start ++ [45] ++ escape_char_for_range e.stop

/-- char_range_render of grammar/char_range.c: empty range list renders
empty, otherwise the entries between brackets (bytes 91 and 93), with a
caret (94) after the opening bracket when negated. -/
def char_range_render (ranges : List GrammaticaCharRangeEntry)
    (negate : Bool) : Option (List Nat) :=
  if ranges = [] then none
  else
    some ([91] ++ (if negate then [94] else []) ++
      ranges.flatMap char_range_render_entry ++ [93])

/-- grouped_render_common of grammar/grammar.c, given the recursively
rendered subexpressions.  The original subexpressions are also passed
because the needs-wrap decision inspects them. -/
def grouped_render_common (subexprs : List GrammaticaGrammar)
    (rendered : List (Option (List Nat))) (q : GrammaticaQuantifier)
    (sep : List Nat) (is_or wrap : Bool) : Option (List Nat) :=
  if subexprs.length < 1 then none
  else
    let needs_wrap :=
      if is_or then needs_wrapped_or subexprs q
      else needs_wrapped_grammar subexprs q
    let rq := grammaticaRenderQuantifier q
    let parts := rendered.filterMap id
    if parts = [] then none
    else
      let expr := joinSep sep parts
      let expr :=
        if needs_wrap && (wrap || rq.isSome) then [40] ++ expr ++ [41]
        else expr
      some (expr ++ rq.getD [])

mutual

/-- grammaticaGrammarRender of grammar/base.c, dispatching to the per-kind
render functions of family A; arguments are the node, full and wrap. -/
def grammaticaGrammarRender : GrammaticaGrammar → Bool → Bool →
    Option (List Nat)
  | .string v, _, _ => string_render v
  | .charRange rs neg, _, _ => char_range_render rs neg
  | .derivationRule sym val, full, wrap =>
    if full then
      (grammaticaGrammarRender val false wrap).map
        (fun r => sym ++ [32, 58, 58, 61, 32] ++ r)
    else some sym
  | .grammar cs q, _, wrap =>
    grouped_render_common cs (renderSubexprs cs) q [32] false wrap
  | .or cs q, _, wrap =>
    grouped_render_common cs (renderSubexprs cs) q [32, 124, 32] true wrap

/-- The per-child render calls of grouped_render_common: each subexpression
is rendered with full set to false and wrap forced true. -/
def renderSubexprs : List GrammaticaGrammar → List (Option (List Nat))
  | [] => []
  | g :: t => grammaticaGrammarRender g false true :: renderSubexprs t

end

mutual

/-- grammaticaMergeAdjacentStrings of grammar/string.c: every maximal run
of adjacent StringLiteral children is replaced by a single literal holding
the concatenation of their values; other children are kept in place. -/
def grammaticaMergeAdjacentStrings :
    List GrammaticaGrammar → List GrammaticaGrammar
  | [] => []
  | .string v :: rest => mergeStringRun v rest
  | g :: rest => g :: grammaticaMergeAdjacentStrings rest
termination_by l => (l.length, 0)

/-- The inner collection loop of grammaticaMergeAdjacentStrings: extend the
accumulated value while the next child is a StringLiteral, then emit the
merged literal and continue. -/
def mergeStringRun (acc : List Nat) :
    List GrammaticaGrammar → List GrammaticaGrammar
  | .string v :: rest => mergeStringRun (acc ++ v) rest
  | rest => .string acc :: grammaticaMergeAdjacentStrings rest
termination_by l => (l.length, 1)

end

/-- char_range_simplify of grammar/char_range.c: empty list of ranges is
empty; a single non-negated single-character entry collapses to a
StringLiteral whose value is built from the char cast of the uint32_t code
point (the cast truncates to a byte, and a zero byte yields the empty C
string); every other case is a copy through grammaticaCharRangeCreate. -/
def char_range_simplify (ranges : List GrammaticaCharRangeEntry)
    (negate : Bool) : Option GrammaticaGrammar :=
  if ranges = [] then none
  else
    match ranges with
    | [e] =>
      if e.start = e.stop ∧ negate = false then
        some (.string (if e.start % 256 = 0 then [] else [e.start % 256]))
      else grammaticaCharRangeCreate ranges negate
    | _ => grammaticaCharRangeCreate ranges negate

mutual

/-- grammaticaGrammarSimplify of grammar/base.c, dispatching to the
per-kind simplify functions of family A (string_simplify,
char_range_simplify, derivation_rule_simplify, grammar_simplify,
or_simplify). -/
def grammaticaGrammarSimplify : GrammaticaGrammar → Option GrammaticaGrammar
  | .string v => if v = [] then none else some (.string v)
  | .charRange rs neg => char_range_simplify rs neg
  | .derivationRule sym val =>
    (grammaticaGrammarSimplify val).map (.derivationRule sym ·)
  | .grammar cs q =>
    let scs := simplifySubexprs cs
    if scs = [] then none
    else
      match grammaticaMergeAdjacentStrings scs with
      | [x] =>
        if q.min = 1 ∧ q.max = 1 then some x
        else grammaticaGrammarCreate [x] q
      | m => grammaticaGrammarCreate m q
  | .or cs q =>
    let scs := orSimplifyKept [] cs
    match scs with
    | [] => none
    | [x] =>
      if q.min = 1 ∧ q.max = 1 then some x
      else grammaticaOrCreate [x] q
    | m => grammaticaOrCreate m q

/-- The child loop of grammar_simplify: simplify each subexpression and
drop the ones that simplify to empty. -/
def simplifySubexprs : List GrammaticaGrammar → List GrammaticaGrammar
  | [] => []
  | g :: t =>
    match grammaticaGrammarSimplify g with
    | none => simplifySubexprs t
    | some s => s :: simplifySubexprs t

/-- The child loop of or_simplify: simplify each subexpression, drop the
empty ones, and drop any result that grammaticaGrammarEquals (with
check_quantifier true) some already kept result, preserving first-seen
order.  The accumulator holds the kept results so far. -/
def orSimplifyKept (acc : List GrammaticaGrammar) :
    List GrammaticaGrammar → List GrammaticaGrammar
  | [] => acc
  | g :: t =>
    match grammaticaGrammarSimplify g with
    | none => orSimplifyKept acc t
    | some s =>
      if acc.any (fun j => grammaticaGrammarEquals s j true) then
        orSimplifyKept acc t
      else orSimplifyKept (acc ++ [s]) t

end

/-! ## Family B data model (src/c/src/ directly) -/

/-- Quantifier of grammatica.h (family B): int lower and int upper, with
upper = -1 meaning infinity. -/
structure Quantifier where
  lower : Int
  upper : Int
deriving DecidableEq, Repr

/-- CharRangePair of grammatica.h: char fields, handled as unsigned char
(byte values 0 to 255) by every use in char_range.c.  The C field named
end is called stop here because end is a reserved word in Lean. -/
structure CharRangePair where
  start : Nat
  stop : Nat
deriving DecidableEq, Repr

/-- The family B grammar tree (Grammar_t of grammatica.h with its five
GrammarType variants). -/
inductive Grammar where
  | string (value : List Nat)
  | charRange (ranges : List CharRangePair) (negate : Bool)
  | derivationRule (symbol : List Nat) (value : Grammar)
  | and (subexprs : List Grammar) (quantifier : Quantifier)
  | or (subexprs : List Grammar) (quantifier : Quantifier)

mutual

/-- grammatica_grammar_equals of grammar_base.c together with the per-kind
equals functions: dispatch passes check_quantifier true for And and Or, so
the comparison is full structural equality. -/
def grammatica_grammar_equals : Grammar → Grammar → Bool
  | .string a, .string b => a == b
  | .charRange r1 n1, .charRange r2 n2 => n1 == n2 && r1 == r2
  | .derivationRule s1 v1, .derivationRule s2 v2 =>
    s1 == s2 && grammatica_grammar_equals v1 v2
  | .and c1 q1, .and c2 q2 =>
    (q1.lower == q2.lower && q1.upper == q2.upper) && equalsListB c1 c2
  | .or c1 q1, .or c2 q2 =>
    (q1.lower == q2.lower && q1.upper == q2.upper) && equalsListB c1 c2
  | _, _ => false

/-- Index-wise subexpression comparison of grammatica_and_equals and
grammatica_or_equals. -/
def equalsListB : List Grammar → List Grammar → Bool
  | [], [] => true
  | a :: as, b :: bs => grammatica_grammar_equals a b && equalsListB as bs
  | _, _ => false

end

mutual

theorem grammatica_grammar_equals_true_iff (a b : Grammar) :
    grammatica_grammar_equals a b = true ↔ a = b := by
  cases a with
  | string v1 =>
    cases b <;> simp [grammatica_grammar_equals]
  | charRange r1 n1 =>
    cases b <;> simp [grammatica_grammar_equals, and_comm]
  | derivationRule s1 v1 =>
    cases b with
    | derivationRule s2 v2 =>
      simp [grammatica_grammar_equals,
        grammatica_grammar_equals_true_iff v1 v2]
    | string _ => simp [grammatica_grammar_equals]
    | charRange _ _ => simp [grammatica_grammar_equals]
    | and _ _ => simp [grammatica_grammar_equals]
    | or _ _ => simp [grammatica_grammar_equals]
  | and c1 q1 =>
    cases b with
    | and c2 q2 =>
      simp [grammatica_grammar_equals, equalsListB_true_iff c1 c2]
      constructor
      · rintro ⟨⟨h1, h2⟩, h3⟩
        exact ⟨h3, by cases q1; cases q2; simp_all⟩
      · rintro ⟨h3, h2⟩
        exact ⟨by cases q1; cases q2; simp_all, h3⟩
    | string _ => simp [grammatica_grammar_equals]
    | charRange _ _ => simp [grammatica_grammar_equals]
    | derivationRule _ _ => simp [grammatica_grammar_equals]
    | or _ _ => simp [grammatica_grammar_equals]
  | or c1 q1 =>
    cases b with
    | or c2 q2 =>
      simp [grammatica_grammar_equals, equalsListB_true_iff c1 c2]
      constructor
      · rintro ⟨⟨h1, h2⟩, h3⟩
        exact ⟨h3, by cases q1; cases q2; simp_all⟩
      · rintro ⟨h3, h2⟩
        exact ⟨by cases q1; cases q2; simp_all, h3⟩
    | string _ => simp [grammatica_grammar_equals]
    | charRange _ _ => simp [grammatica_grammar_equals]
    | derivationRule _ _ => simp [grammatica_grammar_equals]
    | and _ _ => simp [grammatica_grammar_equals]

theorem equalsListB_true_iff (l1 l2 : List Grammar) :
    equalsListB l1 l2 = true ↔ l1 = l2 := by
  match l1, l2 with
  | [], [] => simp [equalsListB]
  | [], _ :: _ => simp [equalsListB]
  | _ :: _, [] => simp [equalsListB]
  | a :: as, b :: bs =>
    simp [equalsListB, grammatica_grammar_equals_true_iff a b,
      equalsListB_true_iff as bs]

end

instance : DecidableEq Grammar := fun a b =>
  decidable_of_iff _ (grammatica_grammar_equals_true_iff a b)

/-- The quantifier validation shared by grammatica_and_create and
grammatica_or_create (and.c lines 18-31, or.c lines 19-32): lower must be
non-negative, and a present upper (not -1) must be at least one and at
least lower. -/
def grammatica_quantifier_valid (q : Quantifier) : Bool :=
  if q.lower < 0 then false
  else if q.upper ≠ -1 ∧ q.upper < 1 then false
  else if q.upper ≠ -1 ∧ q.lower > q.upper then false
  else true

/-- Membership in the byte set covered by a list of pairs, ranges_to_ords
of char_range.c. -/
def ranges_to_ords (rs : List CharRangePair) (c : Nat) : Bool :=
  rs.any (fun e => e.start ≤ c && c ≤ e.stop)

/-- The scanning loop of ords_to_ranges (char_range.c lines 48-71):
walk positions i upward for the given number of remaining steps, tracking
the start of the current run; a run still open at the end closes at 255. -/
def ordsToRangesGo (mem : Nat → Bool) (startv : Option Nat) (i : Nat) :
    Nat → List CharRangePair
  | 0 =>
    match startv with
    | some s => [⟨s, 255⟩]
    | none => []
  | r + 1 =>
    if mem i then
      ordsToRangesGo mem (match startv with | none => some i | some s => some s)
        (i + 1) r
    else
      match startv with
      | some s => ⟨s, i - 1⟩ :: ordsToRangesGo mem none (i + 1) r
      | none => ordsToRangesGo mem none (i + 1) r

/-- ords_to_ranges of char_range.c: the maximal runs of the byte set. -/
def ords_to_ranges (mem : Nat → Bool) : List CharRangePair :=
  ordsToRangesGo mem none 0 256

/-- grammatica_char_range_create of char_range.c: reject an empty list and
any pair with end before start, then store the maximal runs of the covered
byte set (the ordinal-set round trip merges overlapping and adjacent
pairs). -/
def grammatica_char_range_create (rs : List CharRangePair) (negate : Bool) :
    Option Grammar :=
  if rs = [] then none
  else if rs.all (fun e => e.start ≤ e.stop) then
    some (.charRange (ords_to_ranges (ranges_to_ords rs)) negate)
  else none

/-- grammatica_char_range_simplify of char_range.c lines 265-301: empty
list of ranges is empty; a single single-character pair collapses to a
String of that byte (a zero byte yields the empty C string) without
consulting the negate flag; every other case is a copy through
grammatica_char_range_copy, which calls grammatica_char_range_create. -/
def grammatica_char_range_simplify (rs : List CharRangePair)
    (negate : Bool) : Option Grammar :=
  if rs = [] then none
  else
    match rs with
    | [e] =>
      if e.start = e.stop then
        some (.string (if e.start = 0 then [] else [e.start]))
      else grammatica_char_range_create rs negate
    | _ => grammatica_char_range_create rs negate

mutual

/-- grammatica_grammar_copy of grammar_base.c: String and DerivationRule
copy structurally; CharRange copies through grammatica_char_range_create;
And and Or copy every child and rebuild through their create function,
which re-validates the quantifier. -/
def grammatica_grammar_copy : Grammar → Option Grammar
  | .string v => some (.string v)
  | .charRange rs neg => grammatica_char_range_create rs neg
  | .derivationRule sym v =>
    (grammatica_grammar_copy v).map (.derivationRule sym ·)
  | .and cs q =>
    match copyListB cs with
    | none => none
    | some out =>
      if grammatica_quantifier_valid q then some (.and out q) else none
  | .or cs q =>
    match copyListB cs with
    | none => none
    | some out =>
      if grammatica_quantifier_valid q then some (.or out q) else none

/-- The child-copy loops of grammatica_and_copy and grammatica_or_copy:
any failing child copy fails the whole copy. -/
def copyListB : List Grammar → Option (List Grammar)
  | [] => some []
  | g :: t =>
    match grammatica_grammar_copy g, copyListB t with
    | some c, some ct => some (c :: ct)
    | _, _ => none

end

mutual

/-- Node count of a family B tree, the termination measure for simplify. -/
def sizeB : Grammar → Nat
  | .string _ => 1
  | .charRange _ _ => 1
  | .derivationRule _ v => 1 + sizeB v
  | .and cs _ => 1 + sizeBList cs
  | .or cs _ => 1 + sizeBList cs

/-- Total node count of a list of family B trees. -/
def sizeBList : List Grammar → Nat
  | [] => 0
  | g :: t => sizeB g + sizeBList t

end

theorem sizeB_pos (g : Grammar) : 1 ≤ sizeB g := by
  cases g <;> simp [sizeB]

theorem grammatica_char_range_create_size (rs : List CharRangePair)
    (neg : Bool) (r : Grammar)
    (h : grammatica_char_range_create rs neg = some r) : sizeB r = 1 := by
  unfold grammatica_char_range_create at h
  split at h
  · exact absurd h (by simp)
  · split at h
    · cases h
      rfl
    · exact absurd h (by simp)

mutual

theorem grammatica_grammar_copy_size (g : Grammar) (r : Grammar)
    (h : grammatica_grammar_copy g = some r) : sizeB r = sizeB g := by
  cases g with
  | string v =>
    simp [grammatica_grammar_copy] at h
    simp [← h]
  | charRange rs neg =>
    rw [grammatica_char_range_create_size rs neg r h]
    rfl
  | derivationRule sym v =>
    simp [grammatica_grammar_copy] at h
    obtain ⟨c, hc, rfl⟩ := h
    simp [sizeB, grammatica_grammar_copy_size v c hc]
  | and cs q =>
    rw [grammatica_grammar_copy] at h
    split at h
    · exact absurd h (by simp)
    · rename_i out hout
      split at h
      · cases h
        simp [sizeB, copyListB_size cs out hout]
      · exact absurd h (by simp)
  | or cs q =>
    rw [grammatica_grammar_copy] at h
    split at h
    · exact absurd h (by simp)
    · rename_i out hout
      split at h
      · cases h
        simp [sizeB, copyListB_size cs out hout]
      · exact absurd h (by simp)

theorem copyListB_size (l : List Grammar) (out : List Grammar)
    (h : copyListB l = some out) : sizeBList out = sizeBList l := by
  match l with
  | [] =>
    simp [copyListB] at h
    simp [← h]
  | g :: t =>
    rw [copyListB] at h
    split at h
    · rename_i c ct hc hct
      cases h
      simp [sizeBList, grammatica_grammar_copy_size g c hc,
        copyListB_size t ct hct]
    · exact absurd h (by simp)

end

/-- The family B default quantifier, lower 1 and upper 1. -/
def defaultQB : Quantifier := ⟨1, 1⟩

/-- The family B optional quantifier, lower 0 and upper 1. -/
def optionalQB : Quantifier := ⟨0, 1⟩

/-- The condition of and.c lines 186-189: a Sequence whose quantifier is
the optional shape or the default shape exposes its children for the
recursive optional unwrap; everything else does not. -/
def and_opt_unwrap_target : Grammar → Option (List Grammar)
  | .and cs' qc =>
    if qc = optionalQB ∨ qc = defaultQB then some cs' else none
  | _ => none

/-- The condition of or.c lines 202-210: a Sequence or a Choice whose
quantifier is the optional shape or the default shape exposes its children
for the recursive optional unwrap. -/
def or_opt_unwrap_target : Grammar → Option (List Grammar)
  | .and cs' qc =>
    if qc = optionalQB ∨ qc = defaultQB then some cs' else none
  | .or cs' qc =>
    if qc = optionalQB ∨ qc = defaultQB then some cs' else none
  | _ => none

theorem and_opt_unwrap_target_size (g : Grammar) (cs' : List Grammar)
    (h : and_opt_unwrap_target g = some cs') :
    sizeB g = 1 + sizeBList cs' := by
  cases g <;> simp [and_opt_unwrap_target] at h
  rename_i cs qc
  obtain ⟨-, rfl⟩ := h
  rfl

theorem or_opt_unwrap_target_size (g : Grammar) (cs' : List Grammar)
    (h : or_opt_unwrap_target g = some cs') :
    sizeB g = 1 + sizeBList cs' := by
  cases g <;> simp [or_opt_unwrap_target] at h
  · rename_i cs qc
    obtain ⟨-, rfl⟩ := h
    rfl
  · rename_i cs qc
    obtain ⟨-, rfl⟩ := h
    rfl

mutual

/-- grammatica_grammar_simplify of grammar_base.c, dispatching to the
per-kind simplify functions of family B.  The result carries its node
count bound, needed to justify the recursive re-simplification performed
by and_simplify_subexprs. -/
def grammatica_grammar_simplify (g : Grammar) :
    Option {r : Grammar // sizeB r ≤ sizeB g} :=
  match g with
  | .string v =>
    if v = [] then none else some ⟨.string v, by simp [sizeB]⟩
  | .charRange rs neg =>
    match h : grammatica_char_range_simplify rs neg with
    | none => none
    | some r =>
      some ⟨r, by
        unfold grammatica_char_range_simplify at h
        split at h
        · exact absurd h (by simp)
        · split at h
          · split at h
            · cases h
              simp [sizeB]
            · rw [grammatica_char_range_create_size _ _ _ h]
              exact sizeB_pos _
          · rw [grammatica_char_range_create_size _ _ _ h]
            exact sizeB_pos _⟩
  | .derivationRule sym v =>
    match grammatica_grammar_simplify v with
    | none => none
    | some ⟨s, hs⟩ =>
      some ⟨.derivationRule sym s, by simp [sizeB]; omega⟩
  | .and cs q =>
    (and_simplify_subexprs cs q).map
      (fun r => ⟨r.1, by have := r.2; simp [sizeB]; omega⟩)
  | .or cs q =>
    (or_simplify_subexprs cs q).map
      (fun r => ⟨r.1, by have := r.2; simp [sizeB]; omega⟩)
termination_by 4 * sizeB g
decreasing_by
  all_goals simp [sizeB, sizeBList]
  all_goals omega

/-- and_simplify_subexprs of and.c lines 150-259: simplify every child
dropping the empty results; none left is empty; a single child with the
default quantifier unwraps; a single child under the optional quantifier
that is itself a Sequence with optional or default quantifier is unwrapped
by re-simplifying copies of its children under the outer quantifier;
otherwise rebuild through grammatica_and_create (which re-validates the
quantifier; a failed child copy makes the whole simplify empty, as the C
cleanup path does). -/
def and_simplify_subexprs (l : List Grammar) (q : Quantifier) :
    Option {r : Grammar // sizeB r ≤ 1 + sizeBList l} :=
  match hs : simplifyEachB l with
  | ⟨[], _⟩ => none
  | ⟨[c], hc⟩ =>
    if q = defaultQB then
      some ⟨c, by simp [sizeBList] at hc; omega⟩
    else
      if q = optionalQB then
        match ht : and_opt_unwrap_target c with
        | some cs' =>
          match hcp : copyListB cs' with
          | none => none
          | some cs₂ =>
            (and_simplify_subexprs cs₂ q).map
              (fun r => ⟨r.1, by
                have hr := r.2
                have h2 := copyListB_size cs' cs₂ hcp
                have h3 := and_opt_unwrap_target_size c cs' ht
                simp [sizeBList] at hc
                omega⟩)
        | none =>
          if grammatica_quantifier_valid q then
            some ⟨.and [c] q, by simp [sizeBList, sizeB] at hc ⊢; omega⟩
          else none
      else
        if grammatica_quantifier_valid q then
          some ⟨.and [c] q, by simp [sizeBList, sizeB] at hc ⊢; omega⟩
        else none
  | ⟨m, hm⟩ =>
    if grammatica_quantifier_valid q then
      some ⟨.and m q, by simp [sizeB]; omega⟩
    else none
termination_by 4 * sizeBList l + 2
decreasing_by
  all_goals
    first
    | omega
    | (have h2 := copyListB_size cs' cs₂ hcp
       have h3 := and_opt_unwrap_target_size c cs' ht
       simp [sizeBList] at hc
       omega)

/-- or_simplify_subexprs of or.c lines 151-328: simplify every child,
dropping empty results and any result structurally equal to one already
kept; none left is empty; a single survivor with the default quantifier
unwraps; a single survivor under the optional quantifier that is a
Sequence or Choice with optional or default quantifier is unwrapped by
re-simplifying copies of its children under the outer quantifier through
and_simplify_subexprs; any other single survivor is passed to
and_simplify_subexprs (a Choice of one alternative behaves as a Sequence
of one operand); otherwise rebuild through grammatica_or_create. -/
def or_simplify_subexprs (l : List Grammar) (q : Quantifier) :
    Option {r : Grammar // sizeB r ≤ 1 + sizeBList l} :=
  match hs : orKeptB [] l with
  | ⟨[], _⟩ => none
  | ⟨[c], hc⟩ =>
    if q = defaultQB then
      some ⟨c, by simp [sizeBList] at hc; omega⟩
    else
      if q = optionalQB then
        match ht : or_opt_unwrap_target c with
        | some cs' =>
          match hcp : copyListB cs' with
          | none => none
          | some cs₂ =>
            (and_simplify_subexprs cs₂ q).map
              (fun r => ⟨r.1, by
                have hr := r.2
                have h2 := copyListB_size cs' cs₂ hcp
                have h3 := or_opt_unwrap_target_size c cs' ht
                simp [sizeBList] at hc
                omega⟩)
        | none =>
          (and_simplify_subexprs [c] q).map
            (fun r => ⟨r.1, by
              have hr := r.2
              simp [sizeBList] at hc hr
              omega⟩)
      else
        (and_simplify_subexprs [c] q).map
          (fun r => ⟨r.1, by
            have hr := r.2
            simp [sizeBList] at hc hr
            omega⟩)
  | ⟨m, hm⟩ =>
    if grammatica_quantifier_valid q then
      some ⟨.or m q, by simp [sizeB]; omega⟩
    else none
termination_by 4 * sizeBList l + 3
decreasing_by
  all_goals
    first
    | omega
    | (have h2 := copyListB_size cs' cs₂ hcp
       have h3 := or_opt_unwrap_target_size c cs' ht
       simp [sizeBList] at hc
       omega)

/-- The child loop of and_simplify_subexprs: simplify each subexpression,
keeping the non-empty results.  The result carries its total size bound. -/
def simplifyEachB (l : List Grammar) :
    {out : List Grammar // sizeBList out ≤ sizeBList l} :=
  match l with
  | [] => ⟨[], by simp⟩
  | g :: t =>
    match grammatica_grammar_simplify g, simplifyEachB t with
    | none, ⟨out, hout⟩ =>
      ⟨out, by simp [sizeBList]; have := sizeB_pos g; omega⟩
    | some ⟨s, hsz⟩, ⟨out, hout⟩ =>
      ⟨s :: out, by simp [sizeBList]; omega⟩
termination_by 4 * sizeBList l + 1
decreasing_by
  all_goals have := sizeB_pos g
  all_goals simp [sizeBList]
  all_goals omega

/-- The child loop of or_simplify_subexprs: simplify each subexpression,
drop empty results and results grammatica_grammar_equals to an already
kept one, preserving first-seen order.  The accumulator holds the kept
results so far. -/
def orKeptB (acc : List Grammar) (l : List Grammar) :
    {out : List Grammar // sizeBList out ≤ sizeBList l} :=
  match l with
  | [] => ⟨[], by exact Nat.le_refl _⟩
  | g :: t =>
    match grammatica_grammar_simplify g with
    | none =>
      let r := orKeptB acc t
      ⟨r.1, by have := r.2; simp [sizeBList]; have := sizeB_pos g; omega⟩
    | some ⟨s, hsz⟩ =>
      if acc.any (fun j => grammatica_grammar_equals s j) then
        let r := orKeptB acc t
        ⟨r.1, by have := r.2; simp [sizeBList]; have := sizeB_pos g; omega⟩
      else
        let r := orKeptB (acc ++ [s]) t
        ⟨s :: r.1, by have := r.2; simp [sizeBList]; omega⟩
termination_by 4 * sizeBList l + 1
decreasing_by
  all_goals have := sizeB_pos g
  all_goals simp [sizeBList]
  all_goals omega

end

/-- grammatica_grammar_simplify as a plain value function (the size bound
carried by the recursive definition projected away). -/
def simplifyB (g : Grammar) : Option Grammar :=
  (grammatica_grammar_simplify g).map Subtype.val

/-- and_simplify_subexprs as a plain value function. -/
def andSimplifyB (l : List Grammar) (q : Quantifier) : Option Grammar :=
  (and_simplify_subexprs l q).map Subtype.val

/-- or_simplify_subexprs as a plain value function. -/
def orSimplifyB (l : List Grammar) (q : Quantifier) : Option Grammar :=
  (or_simplify_subexprs l q).map Subtype.val

/-- The kept results of the and_simplify_subexprs child loop, as a plain
list. -/
def simplifyEachBv (l : List Grammar) : List Grammar := (simplifyEachB l).val

/-! ## Claims -/

/-- C9: constructing a Sequence or Choice with quantifier min 5 and max 3
(min greater than a present max) fails (the C constructors return NULL
after reporting the invalid-quantifier error; failure is modelled as
none), for every subexpression list; quantifier min 0 and max 0 passes
validation, is treated as unbounded (a zero max disables the min-max
comparison entirely), and renders as the star suffix (byte 42). -/
theorem c9_quantifier_validation :
    (∀ cs : List GrammaticaGrammar,
      grammaticaGrammarCreate cs ⟨5, 3⟩ = none ∧
      grammaticaOrCreate cs ⟨5, 3⟩ = none) ∧
    grammaticaValidateQuantifier ⟨5, 3⟩ = false ∧
    grammaticaValidateQuantifier ⟨0, 0⟩ = true ∧
    (∀ q : GrammaticaQuantifier, q.max = 0 →
      grammaticaValidateQuantifier q = true) ∧
    grammaticaRenderQuantifier ⟨0, 0⟩ = some [42] := by
  refine ⟨fun cs => ⟨?_, ?_⟩, by decide, by decide, fun q hq => ?_, by decide⟩
  · simp [grammaticaGrammarCreate, grammaticaValidateQuantifier]
  · simp [grammaticaOrCreate, grammaticaValidateQuantifier]
  · simp [grammaticaValidateQuantifier, hq]

theorem c9_quantifier_validation_witness :
    grammaticaGrammarCreate [] ⟨5, 3⟩ = none ∧
    (⟨7, 0⟩ : GrammaticaQuantifier).max = 0 ∧
    grammaticaValidateQuantifier ⟨7, 0⟩ = true :=
  ⟨(c9_quantifier_validation.1 []).1, rfl,
    c9_quantifier_validation.2.2.2.1 ⟨7, 0⟩ rfl⟩

/-- C10: constructing a Sequence or Choice from an empty subexpression
list with a valid quantifier succeeds (grammaticaGrammarCreate and
grammaticaOrCreate only reject a NULL array or an invalid quantifier),
and rendering or simplifying the resulting node yields the empty outcome
(NULL in the C sources, none here), not an error. -/
theorem c10_empty_subexprs (q : GrammaticaQuantifier)
    (h : grammaticaValidateQuantifier q = true) :
    grammaticaGrammarCreate [] q = some (.grammar [] q) ∧
    grammaticaOrCreate [] q = some (.or [] q) ∧
    (∀ full wrap, grammaticaGrammarRender (.grammar [] q) full wrap = none) ∧
    (∀ full wrap, grammaticaGrammarRender (.or [] q) full wrap = none) ∧
    grammaticaGrammarSimplify (.grammar [] q) = none ∧
    grammaticaGrammarSimplify (.or [] q) = none := by
  refine ⟨by simp [grammaticaGrammarCreate, h],
    by simp [grammaticaOrCreate, h], fun full wrap => ?_, fun full wrap => ?_,
    ?_, ?_⟩
  · simp [grammaticaGrammarRender, grouped_render_common]
  · simp [grammaticaGrammarRender, grouped_render_common]
  · simp [grammaticaGrammarSimplify, simplifySubexprs]
  · simp [grammaticaGrammarSimplify, orSimplifyKept]

theorem c10_empty_subexprs_witness :
    grammaticaValidateQuantifier ⟨0, 1⟩ = true ∧
    grammaticaGrammarSimplify (.grammar [] ⟨0, 1⟩) = none :=
  ⟨by decide, (c10_empty_subexprs ⟨0, 1⟩ (by decide)).2.2.2.2.1⟩

/-- C5: the claim is right for family A (char_range_simplify of
grammar/char_range.c collapses a single single-character range to a
StringLiteral only when negate is false), but family B contradicts it:
grammatica_char_range_simplify of src/c/src/char_range.c never consults
the negate flag, so the negated single-character class over the letter a
(byte 97) simplifies to the plain literal a instead of an equivalent
negated CharRange copy, which changes the denoted character set. -/
theorem c5_negated_single_char_bug :
    grammatica_char_range_simplify [⟨97, 97⟩] true = some (.string [97]) ∧
    char_range_simplify [⟨97, 97⟩] true =
      some (.charRange [⟨97, 97⟩] true) := by
  constructor
  · rfl
  · decide

/-- C3: for renderable subexpressions a and b (rendered with the sub-level
arguments full false and wrap true, exactly as every sub-render inside a
Sequence or Choice requests), a two-child Choice with the default
quantifier renders parenthesized; a two-child Sequence with the default
quantifier renders space-joined without parentheses; the same Sequence
with the optional quantifier renders parenthesized with the question-mark
suffix; and in general needs_wrapped_or is unconditionally true for two or
more subexpressions while needs_wrapped_grammar is true exactly for a
non-default quantifier. -/
theorem c3_parenthesization (a b : GrammaticaGrammar) (ra rb : List Nat)
    (ha : grammaticaGrammarRender a false true = some ra)
    (hb : grammaticaGrammarRender b false true = some rb) :
    grammaticaGrammarRender (.or [a, b] ⟨1, 1⟩) false true =
      some ([40] ++ ra ++ [32, 124, 32] ++ rb ++ [41]) ∧
    grammaticaGrammarRender (.grammar [a, b] ⟨1, 1⟩) false true =
      some (ra ++ [32] ++ rb) ∧
    grammaticaGrammarRender (.grammar [a, b] ⟨0, 1⟩) false true =
      some ([40] ++ ra ++ [32] ++ rb ++ [41] ++ [63]) ∧
    (∀ (x y : GrammaticaGrammar) (t : List GrammaticaGrammar)
      (q : GrammaticaQuantifier),
      needs_wrapped_or (x :: y :: t) q = true ∧
      needs_wrapped_grammar (x :: y :: t) q =
        (q.min != 1 || q.max != 1)) := by
  refine ⟨?_, ?_, ?_, fun x y t q => ⟨rfl, rfl⟩⟩
  · simp [grammaticaGrammarRender, renderSubexprs, grouped_render_common,
      ha, hb, needs_wrapped_or, grammaticaRenderQuantifier, joinSep]
  · simp [grammaticaGrammarRender, renderSubexprs, grouped_render_common,
      ha, hb, needs_wrapped_grammar, grammaticaRenderQuantifier, joinSep]
  · simp [grammaticaGrammarRender, renderSubexprs, grouped_render_common,
      ha, hb, needs_wrapped_grammar, grammaticaRenderQuantifier, joinSep]

theorem c3_parenthesization_witness :
    grammaticaGrammarRender (.string [97]) false true = some [34, 97, 34] ∧
    grammaticaGrammarRender
      (.or [.string [97], .string [98]] ⟨1, 1⟩) false true =
      some (strBytes ("(\"a\" | \"b\")")) := by
  have h := c3_parenthesization (.string [97]) (.string [98])
    [34, 97, 34] [34, 98, 34] (by decide) (by decide)
  exact ⟨by decide, by rw [h.1]; decide⟩

/-- The escaping order as the spec states it for string-literal context:
control shorthand first, then the context escape set, then the always-safe
passthrough, then the hex fallback.  Used as the refinement target for C2;
the code order in string_render differs syntactically (always-safe is
tested first) but is extensionally the same function. -/
def specStringLiteralEscape (c : Nat) : List Nat :=
  match grammaticaGetCharEscape c with
  | some esc => esc
  | none =>
    if grammaticaIsStringLiteralEscapeChar c then [92, c]
    else if grammaticaIsAlwaysSafeChar c then [c]
    else Grammatica_charToHex c

/-- The escaping order as the spec states it for range context. -/
def specRangeEscape (c : Nat) : List Nat :=
  match grammaticaGetCharEscape c with
  | some esc => esc
  | none =>
    if grammaticaIsRangeEscapeChar c then [92, c]
    else if grammaticaIsAlwaysSafeChar c then [c]
    else Grammatica_charToHex c

theorem always_safe_false_of_ge (c : Nat) (h : 127 ≤ c) :
    grammaticaIsAlwaysSafeChar c = false := by
  simp only [grammaticaIsAlwaysSafeChar, char_is_digit, char_is_ascii_letter,
    char_is_punctuation, char_is_space, PUNCTUATION, Bool.or_eq_false_iff]
  refine ⟨⟨⟨by simp; omega, by simp; omega⟩, ?_⟩, by simp; omega⟩
  simp [List.contains]
  omega

/-- C2: each character of a StringLiteral value and each range endpoint is
escaped by the priority order the spec states, control shorthand, then the
context escape set, then the always-safe passthrough, then the hex
fallback: the per-character escape functions of string_render and
escape_char_for_range agree with that order at every code point; and the
StringLiteral holding Say "Hi" renders with each double quote
backslash-escaped. -/
theorem c2_escaping_order :
    (∀ c : Nat, string_render_char c = specStringLiteralEscape c) ∧
    (∀ c : Nat, escape_char_for_range c = specRangeEscape c) ∧
    string_render (strBytes ("Say \"Hi\"")) =
      some (strBytes ("\"Say \\\"Hi\\\"\"")) := by
  have hsmall : ∀ c : Nat, c < 127 →
      string_render_char c = specStringLiteralEscape c ∧
      escape_char_for_range c = specRangeEscape c := by decide
  refine ⟨fun c => ?_, fun c => ?_, by decide⟩
  · rcases Nat.lt_or_ge c 127 with h | h
    · exact (hsmall c h).1
    · have hs := always_safe_false_of_ge c h
      have hg : grammaticaGetCharEscape c = none := by
        unfold grammaticaGetCharEscape
        rw [if_neg (by omega), if_neg (by omega), if_neg (by omega)]
      have hl : grammaticaIsStringLiteralEscapeChar c = false := by
        simp [grammaticaIsStringLiteralEscapeChar]
        omega
      simp [string_render_char, specStringLiteralEscape, hs, hg, hl]
  · rcases Nat.lt_or_ge c 127 with h | h
    · exact (hsmall c h).2
    · have hs := always_safe_false_of_ge c h
      have hg : grammaticaGetCharEscape c = none := by
        unfold grammaticaGetCharEscape
        rw [if_neg (by omega), if_neg (by omega), if_neg (by omega)]
      have hr : grammaticaIsRangeEscapeChar c = false := by
        simp [grammaticaIsRangeEscapeChar]
        omega
      simp [escape_char_for_range, specRangeEscape, hs, hg, hr]

theorem mergeAdjacent_pair (pre : List GrammaticaGrammar) :
    (∀ s t post, grammaticaMergeAdjacentStrings
        (pre ++ .string s :: .string t :: post) =
      grammaticaMergeAdjacentStrings (pre ++ .string (s ++ t) :: post)) ∧
    (∀ acc s t post, mergeStringRun acc
        (pre ++ .string s :: .string t :: post) =
      mergeStringRun acc (pre ++ .string (s ++ t) :: post)) := by
  induction pre with
  | nil =>
    constructor
    · intro s t post
      simp [grammaticaMergeAdjacentStrings, mergeStringRun]
    · intro acc s t post
      simp [mergeStringRun, List.append_assoc]
  | cons g pre ih =>
    constructor
    · intro s t post
      cases g with
      | string v =>
        simp only [List.cons_append, grammaticaMergeAdjacentStrings]
        exact ih.2 v s t post
      | charRange rs neg =>
        simp only [List.cons_append, grammaticaMergeAdjacentStrings]
        rw [ih.1 s t post]
      | derivationRule sym val =>
        simp only [List.cons_append, grammaticaMergeAdjacentStrings]
        rw [ih.1 s t post]
      | grammar cs q =>
        simp only [List.cons_append, grammaticaMergeAdjacentStrings]
        rw [ih.1 s t post]
      | or cs q =>
        simp only [List.cons_append, grammaticaMergeAdjacentStrings]
        rw [ih.1 s t post]
    · intro acc s t post
      cases g with
      | string v =>
        simp only [List.cons_append, mergeStringRun]
        exact ih.2 (acc ++ v) s t post
      | charRange rs neg =>
        simp only [List.cons_append, mergeStringRun,
          grammaticaMergeAdjacentStrings]
        rw [ih.1 s t post]
      | derivationRule sym val =>
        simp only [List.cons_append, mergeStringRun,
          grammaticaMergeAdjacentStrings]
        rw [ih.1 s t post]
      | grammar cs q =>
        simp only [List.cons_append, mergeStringRun,
          grammaticaMergeAdjacentStrings]
        rw [ih.1 s t post]
      | or cs q =>
        simp only [List.cons_append, mergeStringRun,
          grammaticaMergeAdjacentStrings]
        rw [ih.1 s t post]

/-- C7: simplifying a Sequence merges every run of adjacent StringLiteral
children into one concatenated literal (any two adjacent literals anywhere
in the child list collapse into their concatenation, so maximal runs
collapse by iteration), and the default-quantified Sequence of the three
literals Hello, space, World simplifies to the single literal
Hello World. -/
theorem c7_sequence_string_merge :
    grammaticaGrammarSimplify (.grammar
      [.string (strBytes ("Hello")), .string (strBytes (" ")),
       .string (strBytes ("World"))] ⟨1, 1⟩) =
      some (.string (strBytes ("Hello World"))) ∧
    (∀ (pre post : List GrammaticaGrammar) (s t : List Nat),
      grammaticaMergeAdjacentStrings
          (pre ++ .string s :: .string t :: post) =
        grammaticaMergeAdjacentStrings (pre ++ .string (s ++ t) :: post)) := by
  constructor
  · simp [grammaticaGrammarSimplify, simplifySubexprs, strBytes,
      grammaticaMergeAdjacentStrings, mergeStringRun]
  · intro pre post s t
    exact (mergeAdjacent_pair pre).1 s t post

/-- The first-seen deduplication described by the spec for Choice
simplification, phrased over plain structural equality: keep an element
only when no already-kept element equals it. -/
def dedupKeepFirst (l : List GrammaticaGrammar) : List GrammaticaGrammar :=
  l.foldl (fun acc x => if x ∈ acc then acc else acc ++ [x]) []

theorem orSimplifyKept_foldl (cs : List GrammaticaGrammar) :
    ∀ acc : List GrammaticaGrammar,
    orSimplifyKept acc cs = (simplifySubexprs cs).foldl
      (fun acc x => if x ∈ acc then acc else acc ++ [x]) acc := by
  induction cs with
  | nil => intro acc; simp [orSimplifyKept, simplifySubexprs]
  | cons g t ih =>
    intro acc
    rw [orSimplifyKept, simplifySubexprs]
    cases hg : grammaticaGrammarSimplify g with
    | none => exact ih acc
    | some s =>
      by_cases hin : s ∈ acc
      · have hany : (acc.any fun j => grammaticaGrammarEquals s j true) =
            true := by
          simp only [List.any_eq_true]
          exact ⟨s, hin, (grammaticaGrammarEquals_true_iff s s).mpr rfl⟩
        simp only [hany, if_true, List.foldl_cons, if_pos hin]
        exact ih acc
      · have hany : (acc.any fun j => grammaticaGrammarEquals s j true) =
            false := by
          simp only [List.any_eq_false]
          intro j hj
          simp only [Bool.not_eq_true]
          by_contra hc
          simp only [Bool.not_eq_false] at hc
          refine hin ?_
          rw [(grammaticaGrammarEquals_true_iff s j).mp hc]
          exact hj
        simp only [hany, Bool.false_eq_true, if_false, List.foldl_cons,
          if_neg hin]
        exact ih (acc ++ [s])

/-- C8: simplifying a Choice keeps, in first-seen order, exactly the
simplified children that are not structurally equal (quantifiers
included: the comparison is grammaticaGrammarEquals with check_quantifier
true, which theorem grammaticaGrammarEquals_true_iff identifies with
structural equality) to an already kept child; and the default-quantified
Choice of the literals x, x, y simplifies to the two-child Choice x then
y. -/
theorem c8_choice_dedup :
    grammaticaGrammarSimplify (.or
      [.string [120], .string [120], .string [121]] ⟨1, 1⟩) =
      some (.or [.string [120], .string [121]] ⟨1, 1⟩) ∧
    (∀ cs : List GrammaticaGrammar,
      orSimplifyKept [] cs = dedupKeepFirst (simplifySubexprs cs)) := by
  constructor
  · simp [grammaticaGrammarSimplify, orSimplifyKept, grammaticaGrammarEquals,
      grammaticaOrCreate, grammaticaValidateQuantifier]
  · intro cs
    exact orSimplifyKept_foldl cs []

/-- A code point is covered by an entry list when some entry's inclusive
interval contains it. -/
def covered (l : List GrammaticaCharRangeEntry) (c : Nat) : Prop :=
  ∃ e ∈ l, e.start ≤ c ∧ c ≤ e.stop

/-- Canonical form as the claim states it: every entry is a valid interval
and each later entry starts strictly after the previous entry's end plus
one (no overlap, no adjacency; together with validity this also makes the
list strictly sorted by start). -/
def Canonical (l : List GrammaticaCharRangeEntry) : Prop :=
  (∀ e ∈ l, e.start ≤ e.stop) ∧
    l.Chain' (fun a b => a.stop + 1 < b.start)

theorem covered_cons (e : GrammaticaCharRangeEntry)
    (l : List GrammaticaCharRangeEntry) (c : Nat) :
    covered (e :: l) c ↔ (e.start ≤ c ∧ c ≤ e.stop) ∨ covered l c := by
  simp [covered]

theorem mergeSweep_head_start (rest : List GrammaticaCharRangeEntry) :
    ∀ cur, ∃ s tl,
      mergeSweep cur rest = GrammaticaCharRangeEntry.mk cur.start s :: tl := by
  induction rest with
  | nil =>
    intro cur
    exact ⟨cur.stop, [], rfl⟩
  | cons e rest ih =>
    intro cur
    rw [mergeSweep]
    split
    · exact ih ⟨cur.start, if cur.stop < e.stop then e.stop else cur.stop⟩
    · exact ⟨cur.stop, mergeSweep e rest, rfl⟩

theorem canonical_tail (a : GrammaticaCharRangeEntry)
    (l : List GrammaticaCharRangeEntry) (h : Canonical (a :: l)) :
    Canonical l := by
  obtain ⟨hv, hc⟩ := h
  exact ⟨fun e he => hv e (List.mem_cons_of_mem a he), hc.tail⟩

theorem canonical_cons_all : ∀ (l : List GrammaticaCharRangeEntry)
    (a : GrammaticaCharRangeEntry), Canonical (a :: l) →
    ∀ e ∈ l, a.stop + 1 < e.start := by
  intro l
  induction l with
  | nil =>
    intro a _ e he
    cases he
  | cons b l ih =>
    intro a h e he
    have hab : a.stop + 1 < b.start := (List.chain'_cons.mp h.2).1
    rcases List.mem_cons.mp he with rfl | he'
    · exact hab
    · have hb := ih b (canonical_tail a (b :: l) h) e he'
      have hbb : b.start ≤ b.stop := h.1 b (by simp)
      omega

theorem canonical_head_min (a : GrammaticaCharRangeEntry)
    (l : List GrammaticaCharRangeEntry) (h : Canonical (a :: l)) (c : Nat)
    (hc : covered (a :: l) c) : a.start ≤ c := by
  rcases (covered_cons a l c).mp hc with ⟨h1, _⟩ | ⟨e, he, h1, h2⟩
  · exact h1
  · have := canonical_cons_all l a h e he
    have := h.1 a (by simp)
    omega

/-- Two canonical entry lists covering the same set of code points are
equal: canonical form is unique. -/
theorem canonical_unique (r : List GrammaticaCharRangeEntry) :
    ∀ s : List GrammaticaCharRangeEntry, Canonical r → Canonical s →
    (∀ c, covered r c ↔ covered s c) → r = s := by
  induction r with
  | nil =>
    intro s _ hs hcov
    cases s with
    | nil => rfl
    | cons b s' =>
      exfalso
      have : covered (b :: s') b.start :=
        ⟨b, by simp, le_refl _, hs.1 b (by simp)⟩
      have : covered [] b.start := (hcov b.start).mpr this
      obtain ⟨e, he, -⟩ := this
      cases he
  | cons a r' ih =>
    intro s hr hs hcov
    cases s with
    | nil =>
      exfalso
      have : covered (a :: r') a.start :=
        ⟨a, by simp, le_refl _, hr.1 a (by simp)⟩
      have : covered [] a.start := (hcov a.start).mp this
      obtain ⟨e, he, -⟩ := this
      cases he
    | cons b s' =>
      have hav : a.start ≤ a.stop := hr.1 a (by simp)
      have hbv : b.start ≤ b.stop := hs.1 b (by simp)
      have hstart : a.start = b.start := by
        have h1 : b.start ≤ a.start :=
          canonical_head_min b s' hs a.start
            ((hcov a.start).mp ⟨a, by simp, le_refl _, hav⟩)
        have h2 : a.start ≤ b.start :=
          canonical_head_min a r' hr b.start
            ((hcov b.start).mpr ⟨b, by simp, le_refl _, hbv⟩)
        omega
      have hstop : a.stop = b.stop := by
        by_contra hne
        rcases Nat.lt_or_ge a.stop b.stop with hlt | hge
        · -- the point right after a.stop is covered by s but not by r
          have hcb : covered (b :: s') (a.stop + 1) :=
            ⟨b, by simp, by omega, by omega⟩
          rcases (covered_cons a r' (a.stop + 1)).mp
              ((hcov (a.stop + 1)).mpr hcb) with ⟨-, h2⟩ | hrest
          · omega
          · obtain ⟨e, he, h1, h2⟩ := hrest
            have := canonical_cons_all r' a hr e he
            omega
        · have hlt : b.stop < a.stop := by omega
          have hca : covered (a :: r') (b.stop + 1) :=
            ⟨a, by simp, by omega, by omega⟩
          rcases (covered_cons b s' (b.stop + 1)).mp
              ((hcov (b.stop + 1)).mp hca) with ⟨-, h2⟩ | hrest
          · omega
          · obtain ⟨e, he, h1, h2⟩ := hrest
            have := canonical_cons_all s' b hs e he
            omega
      have hab : a = b := by
        cases a; cases b
        simp_all
      subst hab
      have htail : r' = s' := by
        refine ih s' (canonical_tail a r' hr) (canonical_tail a s' hs)
          (fun c => ?_)
        constructor
        · intro hcv
          obtain ⟨e, he, h1, h2⟩ := hcv
          have hgt : a.stop + 1 < e.start := canonical_cons_all r' a hr e he
          have : covered (a :: s') c :=
            (hcov c).mp ((covered_cons a r' c).mpr (Or.inr ⟨e, he, h1, h2⟩))
          rcases (covered_cons a s' c).mp this with ⟨-, h4⟩ | hrest
          · omega
          · exact hrest
        · intro hcv
          obtain ⟨e, he, h1, h2⟩ := hcv
          have hgt : a.stop + 1 < e.start := canonical_cons_all s' a hs e he
          have : covered (a :: r') c :=
            (hcov c).mpr ((covered_cons a s' c).mpr (Or.inr ⟨e, he, h1, h2⟩))
          rcases (covered_cons a r' c).mp this with ⟨-, h4⟩ | hrest
          · omega
          · exact hrest
      rw [htail]

/-- The sweep of merge_ranges, on a sorted, valid, overflow-free input,
produces a canonical list covering exactly the running interval together
with the rest. -/
theorem mergeSweep_spec (rest : List GrammaticaCharRangeEntry) :
    ∀ cur : GrammaticaCharRangeEntry,
    cur.start ≤ cur.stop → (∀ e ∈ rest, e.start ≤ e.stop) →
    cur.stop + 1 < U32 → (∀ e ∈ rest, e.stop + 1 < U32) →
    (cur :: rest).Pairwise rangeLe →
    Canonical (mergeSweep cur rest) ∧
      (∀ c, covered (mergeSweep cur rest) c ↔
        (cur.start ≤ c ∧ c ≤ cur.stop) ∨ covered rest c) := by
  induction rest with
  | nil =>
    intro cur hv _ _ _ _
    constructor
    · exact ⟨by simpa [mergeSweep] using hv, by simp [mergeSweep]⟩
    · intro c
      simp [mergeSweep, covered]
  | cons e rest ih =>
    intro cur hv hrv hov hrov hsort
    have hev : e.start ≤ e.stop := hrv e (by simp)
    have heov : e.stop + 1 < U32 := hrov e (by simp)
    have hce : cur.start ≤ e.start := by
      have := List.pairwise_cons.mp hsort
      exact this.1 e (by simp)
    rw [mergeSweep]
    split
    · rename_i hcond
      rw [Nat.mod_eq_of_lt hov] at hcond
      generalize hg : (if cur.stop < e.stop then e.stop else cur.stop) = m
      have hm1 : cur.stop ≤ m := by rw [← hg]; split <;> omega
      have hm2 : e.stop ≤ m := by rw [← hg]; split <;> omega
      have hm3 : m = cur.stop ∨ m = e.stop := by
        rw [← hg]; split
        · exact Or.inr rfl
        · exact Or.inl rfl
      have hih := ih ⟨cur.start, m⟩
        (by simp only []; omega)
        (fun x hx => hrv x (List.mem_cons_of_mem e hx))
        (by simp only []; omega)
        (fun x hx => hrov x (List.mem_cons_of_mem e hx))
        (by
          rcases List.pairwise_cons.mp hsort with ⟨h1, h2⟩
          rcases List.pairwise_cons.mp h2 with ⟨h3, h4⟩
          refine List.pairwise_cons.mpr ⟨?_, h4⟩
          intro x hx
          exact h1 x (List.mem_cons_of_mem e hx))
      refine ⟨hih.1, fun c => ?_⟩
      rw [hih.2 c, covered_cons]
      simp only []
      constructor
      · rintro (⟨h1, h2⟩ | h3)
        · rcases le_or_lt c cur.stop with hc | hc
          · exact Or.inl ⟨h1, hc⟩
          · refine Or.inr (Or.inl ⟨by omega, by omega⟩)
        · exact Or.inr (Or.inr h3)
      · rintro (⟨h1, h2⟩ | ⟨h1, h2⟩ | h3)
        · exact Or.inl ⟨h1, by omega⟩
        · exact Or.inl ⟨by omega, by omega⟩
        · exact Or.inr h3
    · rename_i hcond
      rw [Nat.mod_eq_of_lt hov] at hcond
      have hgap : cur.stop + 1 < e.start := by omega
      have hih := ih e hev
        (fun x hx => hrv x (List.mem_cons_of_mem e hx))
        heov
        (fun x hx => hrov x (List.mem_cons_of_mem e hx))
        (List.pairwise_cons.mp hsort).2
      obtain ⟨s, tl, hhead⟩ := mergeSweep_head_start rest e
      constructor
      · refine ⟨?_, ?_⟩
        · intro x hx
          rcases List.mem_cons.mp hx with rfl | hx
          · exact hv
          · exact hih.1.1 x hx
        · refine List.chain'_cons'.mpr ⟨?_, hih.1.2⟩
          intro h hh
          rw [hhead] at hh
          simp at hh
          rw [← hh]
          exact hgap
      · intro c
        rw [covered_cons, hih.2 c, covered_cons]

/-- merge_ranges on a non-empty, valid, overflow-free input is canonical
and coverage-preserving. -/
theorem merge_ranges_spec (l : List GrammaticaCharRangeEntry)
    (hne : l ≠ []) (hval : ∀ e ∈ l, e.start ≤ e.stop)
    (hov : ∀ e ∈ l, e.stop + 1 < U32) :
    Canonical (merge_ranges l) ∧
      (∀ c, covered (merge_ranges l) c ↔ covered l c) := by
  rw [merge_ranges]
  split
  · rename_i hlen
    match l, hne with
    | [e], _ =>
      refine ⟨⟨hval, by simp⟩, fun c => Iff.rfl⟩
    | x :: y :: t, _ => simp at hlen
  · rename_i hlen
    have hperm : (List.insertionSort rangeLe l).Perm l :=
      List.perm_insertionSort rangeLe l
    have hsorted : (List.insertionSort rangeLe l).Pairwise rangeLe :=
      List.sorted_insertionSort rangeLe l
    have hmem : ∀ e, e ∈ List.insertionSort rangeLe l ↔ e ∈ l :=
      fun e => hperm.mem_iff
    match hsort : List.insertionSort rangeLe l with
    | [] =>
      exfalso
      rw [hsort] at hperm
      exact hne (hperm.symm.eq_nil)
    | h :: t =>
      rw [hsort] at hsorted hmem
      have hspec := mergeSweep_spec t h
        (hval h ((hmem h).mp (by simp)))
        (fun e he => hval e ((hmem e).mp (List.mem_cons_of_mem h he)))
        (hov h ((hmem h).mp (by simp)))
        (fun e he => hov e ((hmem e).mp (List.mem_cons_of_mem h he)))
        hsorted
      refine ⟨hspec.1, fun c => ?_⟩
      rw [hspec.2 c]
      rw [← covered_cons]
      constructor
      · rintro ⟨e, he, h1, h2⟩
        exact ⟨e, (hmem e).mp he, h1, h2⟩
      · rintro ⟨e, he, h1, h2⟩
        exact ⟨e, (hmem e).mpr he, h1, h2⟩

theorem canonical_sorted (l : List GrammaticaCharRangeEntry)
    (h : Canonical l) : l.Chain' (fun a b => a.start < b.start) := by
  induction l with
  | nil => simp
  | cons a t ih =>
    refine List.chain'_cons'.mpr ⟨?_, ih (canonical_tail a t h)⟩
    intro b hb
    have hmem : b ∈ t := by
      cases t with
      | nil => simp at hb
      | cons x t' =>
        simp at hb
        simp [hb]
    have := canonical_cons_all t a h b hmem
    have := h.1 a (by simp)
    omega

/-- C1 counterexample: the claim fails as stated because merge_ranges
computes end + 1 in uint32_t arithmetic.  For the valid non-empty input
(0, 4294967295), (2, 5) the wrapped sum is 0, the overlap test fails, and
construction stores two overlapping entries: the second stored entry
starts at 2, inside the first stored entry, so the stored list is not
canonical. -/
theorem c1_counterexample :
    grammaticaCharRangeCreate [⟨0, 4294967295⟩, ⟨2, 5⟩] false =
      some (.charRange [⟨0, 4294967295⟩, ⟨2, 5⟩] false) ∧
    ¬ Canonical [(⟨0, 4294967295⟩ : GrammaticaCharRangeEntry), ⟨2, 5⟩] := by
  constructor
  · decide
  · rintro ⟨-, hc⟩
    have h2 := (List.chain'_cons.mp hc).1
    simp at h2

/-- C1 (amended: restricted to inputs in which every entry's end is small
enough that end + 1 does not wrap in uint32_t arithmetic, which the
counterexample above forces): for every non-empty list of valid entries,
construction succeeds and stores the merged list, which is canonical
(valid entries, each later entry starting strictly after the previous end
plus one, hence strictly sorted by start), covers exactly the same code
points as the input, and is the same for every permutation of the
input. -/
theorem c1_range_canonicalization (l : List GrammaticaCharRangeEntry)
    (neg : Bool) (hne : l ≠ [])
    (hval : ∀ e ∈ l, e.start ≤ e.stop)
    (hov : ∀ e ∈ l, e.stop + 1 < U32) :
    grammaticaCharRangeCreate l neg =
      some (.charRange (merge_ranges l) neg) ∧
    Canonical (merge_ranges l) ∧
    (merge_ranges l).Chain' (fun a b => a.start < b.start) ∧
    (∀ c, covered (merge_ranges l) c ↔ covered l c) ∧
    (∀ l', l.Perm l' →
      grammaticaCharRangeCreate l' neg = grammaticaCharRangeCreate l neg) := by
  have hcreate : ∀ (m : List GrammaticaCharRangeEntry), m ≠ [] →
      (∀ e ∈ m, e.start ≤ e.stop) →
      grammaticaCharRangeCreate m neg =
        some (.charRange (merge_ranges m) neg) := by
    intro m hm hv
    rw [grammaticaCharRangeCreate, if_neg hm, if_pos]
    rw [List.all_eq_true]
    intro e he
    exact decide_eq_true (hv e he)
  have hspec := merge_ranges_spec l hne hval hov
  refine ⟨hcreate l hne hval, hspec.1, canonical_sorted _ hspec.1,
    hspec.2, ?_⟩
  intro l' hperm
  have hne' : l' ≠ [] := by
    intro h
    rw [h] at hperm
    exact hne hperm.eq_nil
  have hval' : ∀ e ∈ l', e.start ≤ e.stop :=
    fun e he => hval e (hperm.mem_iff.mpr he)
  have hov' : ∀ e ∈ l', e.stop + 1 < U32 :=
    fun e he => hov e (hperm.mem_iff.mpr he)
  have hspec' := merge_ranges_spec l' hne' hval' hov'
  have heq : merge_ranges l' = merge_ranges l := by
    refine canonical_unique (merge_ranges l') (merge_ranges l) hspec'.1
      hspec.1 (fun c => ?_)
    rw [hspec'.2 c, hspec.2 c]
    constructor
    · rintro ⟨e, he, h1, h2⟩
      exact ⟨e, hperm.mem_iff.mpr he, h1, h2⟩
    · rintro ⟨e, he, h1, h2⟩
      exact ⟨e, hperm.mem_iff.mp he, h1, h2⟩
  rw [hcreate l' hne' hval', hcreate l hne hval, heq]

theorem c1_range_canonicalization_witness :
    grammaticaCharRangeCreate [⟨10, 20⟩, ⟨0, 5⟩] false =
      some (.charRange (merge_ranges [⟨10, 20⟩, ⟨0, 5⟩]) false) ∧
    Canonical (merge_ranges [⟨10, 20⟩, ⟨0, 5⟩]) ∧
    grammaticaCharRangeCreate [⟨0, 5⟩, ⟨10, 20⟩] false =
      grammaticaCharRangeCreate [⟨10, 20⟩, ⟨0, 5⟩] false := by
  have h := c1_range_canonicalization [⟨10, 20⟩, ⟨0, 5⟩] false
    (by decide) (by decide) (by decide)
  exact ⟨h.1, h.2.1, h.2.2.2.2 [⟨0, 5⟩, ⟨10, 20⟩] (by decide)⟩

/-! Subtype-free evaluation rules for the family B simplifier, read off
from the definitions above; all later reasoning about and.c and or.c goes
through these. -/

theorem simplifyB_string (v : List Nat) :
    simplifyB (.string v) = if v = [] then none else some (.string v) := by
  rw [simplifyB, grammatica_grammar_simplify]
  split <;> simp_all

theorem simplifyB_charRange (rs : List CharRangePair) (neg : Bool) :
    simplifyB (.charRange rs neg) = grammatica_char_range_simplify rs neg := by
  rw [simplifyB, grammatica_grammar_simplify]
  split <;> simp_all

theorem simplifyB_derivationRule (sym : List Nat) (v : Grammar) :
    simplifyB (.derivationRule sym v) =
      (simplifyB v).map (.derivationRule sym ·) := by
  rw [simplifyB, grammatica_grammar_simplify]
  split <;> rename_i heq <;> rw [simplifyB, heq] <;> rfl

theorem simplifyB_and (cs : List Grammar) (q : Quantifier) :
    simplifyB (.and cs q) = andSimplifyB cs q := by
  rw [simplifyB, grammatica_grammar_simplify, andSimplifyB]
  rcases and_simplify_subexprs cs q with _ | ⟨r, hr⟩ <;> rfl

theorem simplifyB_or (cs : List Grammar) (q : Quantifier) :
    simplifyB (.or cs q) = orSimplifyB cs q := by
  rw [simplifyB, grammatica_grammar_simplify, orSimplifyB]
  rcases or_simplify_subexprs cs q with _ | ⟨r, hr⟩ <;> rfl

theorem simplifyEachBv_nil : simplifyEachBv [] = [] := by
  rw [simplifyEachBv, simplifyEachB]

theorem simplifyEachBv_cons (g : Grammar) (t : List Grammar) :
    simplifyEachBv (g :: t) =
      match simplifyB g with
      | none => simplifyEachBv t
      | some s => s :: simplifyEachBv t := by
  rw [simplifyEachBv, simplifyEachB]
  rcases hg : grammatica_grammar_simplify g with _ | ⟨s, hs⟩ <;>
    rcases ht : simplifyEachB t with ⟨out, hout⟩ <;>
    simp [simplifyB, simplifyEachBv, hg, ht]

theorem simplifyB_size (g r : Grammar) (h : simplifyB g = some r) :
    sizeB r ≤ sizeB g := by
  rw [simplifyB] at h
  rcases hg : grammatica_grammar_simplify g with _ | ⟨s, hs⟩
  · rw [hg] at h
    cases h
  · rw [hg] at h
    simp at h
    exact h ▸ hs

theorem sizeB_le_of_mem (m : List Grammar) (x : Grammar) (hx : x ∈ m) :
    sizeB x ≤ sizeBList m := by
  induction m with
  | nil => cases hx
  | cons y t ih =>
    rcases List.mem_cons.mp hx with rfl | hx'
    · simp [sizeBList]
    · have := ih hx'
      simp [sizeBList]
      omega

theorem simplifyEachBv_size (l : List Grammar) :
    sizeBList (simplifyEachBv l) ≤ sizeBList l := (simplifyEachB l).2

theorem simplifyEachBv_mem (l : List Grammar) (x : Grammar)
    (hx : x ∈ simplifyEachBv l) : ∃ g ∈ l, simplifyB g = some x := by
  induction l with
  | nil =>
    rw [simplifyEachBv_nil] at hx
    cases hx
  | cons g t ih =>
    rw [simplifyEachBv_cons] at hx
    rcases hg : simplifyB g with _ | s
    · rw [hg] at hx
      obtain ⟨y, hy, h⟩ := ih hx
      exact ⟨y, List.mem_cons_of_mem g hy, h⟩
    · rw [hg] at hx
      rcases List.mem_cons.mp hx with rfl | hx'
      · exact ⟨g, by simp, hg⟩
      · obtain ⟨y, hy, h⟩ := ih hx'
        exact ⟨y, List.mem_cons_of_mem g hy, h⟩

theorem andSimplifyB_nil (l : List Grammar) (q : Quantifier)
    (h : simplifyEachBv l = []) : andSimplifyB l q = none := by
  rw [andSimplifyB, and_simplify_subexprs]
  split
  · rfl
  · rename_i c hc hs
    rw [simplifyEachBv, hs] at h
    simp at h
  · rename_i m hsz hnil hone heq
    rw [simplifyEachBv, heq] at h
    exact absurd h hnil

theorem andSimplifyB_single_default (l : List Grammar) (c : Grammar)
    (h : simplifyEachBv l = [c]) :
    andSimplifyB l defaultQB = some c := by
  rw [andSimplifyB, and_simplify_subexprs]
  split
  · rename_i heq
    rw [simplifyEachBv, heq] at h
    simp at h
  · rename_i c' hc' heq
    rw [simplifyEachBv, heq] at h
    simp at h
    simp [h]
  · rename_i m hsz hnil hone heq
    rw [simplifyEachBv, heq] at h
    exact absurd h (hone c)

/-- The recursive unwrap equation of and_simplify_subexprs (and.c lines
185-222): when the children simplify to exactly one Sequence whose own
quantifier is optional or default, simplifying under the optional
quantifier re-simplifies copies of the inner children under the outer
optional quantifier. -/
theorem andSimplifyB_optional_unwrap (l : List Grammar) (c : Grammar)
    (cs' cs₂ : List Grammar)
    (h : simplifyEachBv l = [c])
    (ht : and_opt_unwrap_target c = some cs')
    (hcp : copyListB cs' = some cs₂) :
    andSimplifyB l optionalQB = andSimplifyB cs₂ optionalQB := by
  rw [andSimplifyB, and_simplify_subexprs]
  split
  · rename_i heq
    rw [simplifyEachBv, heq] at h
    simp at h
  · rename_i c' hc' heq
    rw [simplifyEachBv, heq] at h
    simp at h
    subst h
    rw [if_neg (by decide), if_pos rfl]
    split
    · rename_i cs'' ht2
      rw [ht] at ht2
      injection ht2 with ht2
      subst ht2
      split
      · rename_i hcp2
        rw [hcp] at hcp2
        cases hcp2
      · rename_i cs₂' hcp2
        rw [hcp] at hcp2
        injection hcp2 with hcp2
        subst hcp2
        rw [andSimplifyB]
        rcases and_simplify_subexprs cs₂ optionalQB with _ | ⟨r, hr⟩ <;> rfl
    · rename_i ht2
      rw [ht] at ht2
      cases ht2
  · rename_i m hsz hnil hone heq
    rw [simplifyEachBv, heq] at h
    exact absurd h (hone c)

theorem andSimplifyB_single_rebuild (l : List Grammar) (q : Quantifier)
    (c : Grammar) (h : simplifyEachBv l = [c]) (hq1 : q ≠ defaultQB)
    (hq2 : q = optionalQB → and_opt_unwrap_target c = none) :
    andSimplifyB l q =
      if grammatica_quantifier_valid q then some (.and [c] q) else none := by
  rw [andSimplifyB, and_simplify_subexprs]
  split
  · rename_i heq
    rw [simplifyEachBv, heq] at h
    simp at h
  · rename_i c' hc' heq
    rw [simplifyEachBv, heq] at h
    simp at h
    subst h
    rw [if_neg hq1]
    by_cases hqo : q = optionalQB
    · rw [if_pos hqo]
      split
      · rename_i cs'' ht2
        rw [hq2 hqo] at ht2
        cases ht2
      · split <;> simp
    · rw [if_neg hqo]
      split <;> simp
  · rename_i m hsz hnil hone heq
    rw [simplifyEachBv, heq] at h
    exact absurd h (hone c)

theorem andSimplifyB_multi (l : List Grammar) (q : Quantifier)
    (x y : Grammar) (t : List Grammar)
    (h : simplifyEachBv l = x :: y :: t) :
    andSimplifyB l q =
      if grammatica_quantifier_valid q then some (.and (x :: y :: t) q)
      else none := by
  rw [andSimplifyB, and_simplify_subexprs]
  split
  · rename_i heq
    rw [simplifyEachBv, heq] at h
    simp at h
  · rename_i c' hc' heq
    rw [simplifyEachBv, heq] at h
    simp at h
  · rename_i m hsz hnil hone heq
    rw [simplifyEachBv, heq] at h
    subst h
    split <;> simp

/-- The kept results of the or_simplify_subexprs child loop, as a plain
list. -/
def orKeptBv (acc l : List Grammar) : List Grammar := (orKeptB acc l).val

theorem orKeptBv_nil (acc : List Grammar) : orKeptBv acc [] = [] := by
  rw [orKeptBv, orKeptB]

theorem orKeptBv_cons (acc : List Grammar) (g : Grammar)
    (t : List Grammar) :
    orKeptBv acc (g :: t) =
      match simplifyB g with
      | none => orKeptBv acc t
      | some s =>
        if acc.any (fun j => grammatica_grammar_equals s j) then
          orKeptBv acc t
        else s :: orKeptBv (acc ++ [s]) t := by
  rw [orKeptBv, orKeptB]
  rcases hg : grammatica_grammar_simplify g with _ | ⟨s, hs⟩ <;>
    simp [simplifyB, orKeptBv, hg]
  split <;> simp

theorem orKeptBv_size (l : List Grammar) (acc : List Grammar) :
    sizeBList (orKeptBv acc l) ≤ sizeBList l := (orKeptB acc l).2

theorem orKeptBv_mem (l : List Grammar) :
    ∀ (acc : List Grammar) (x : Grammar), x ∈ orKeptBv acc l →
    ∃ g ∈ l, simplifyB g = some x := by
  induction l with
  | nil =>
    intro acc x hx
    rw [orKeptBv_nil] at hx
    cases hx
  | cons g t ih =>
    intro acc x hx
    rw [orKeptBv_cons] at hx
    rcases hg : simplifyB g with _ | s
    · rw [hg] at hx
      obtain ⟨y, hy, h⟩ := ih acc x hx
      exact ⟨y, List.mem_cons_of_mem g hy, h⟩
    · rw [hg] at hx
      simp only [] at hx
      by_cases hdup : (acc.any fun j => grammatica_grammar_equals s j) = true
      · rw [if_pos hdup] at hx
        obtain ⟨y, hy, h⟩ := ih acc x hx
        exact ⟨y, List.mem_cons_of_mem g hy, h⟩
      · rw [if_neg hdup] at hx
        rcases List.mem_cons.mp hx with rfl | hx'
        · exact ⟨g, by simp, hg⟩
        · obtain ⟨y, hy, h⟩ := ih (acc ++ [s]) x hx'
          exact ⟨y, List.mem_cons_of_mem g hy, h⟩

theorem orSimplifyB_nil (l : List Grammar) (q : Quantifier)
    (h : orKeptBv [] l = []) : orSimplifyB l q = none := by
  rw [orSimplifyB, or_simplify_subexprs]
  split
  · rfl
  · rename_i c hc heq
    rw [orKeptBv, heq] at h
    simp at h
  · rename_i m hsz hnil hone heq
    rw [orKeptBv, heq] at h
    exact absurd h hnil

theorem orSimplifyB_single_default (l : List Grammar) (c : Grammar)
    (h : orKeptBv [] l = [c]) :
    orSimplifyB l defaultQB = some c := by
  rw [orSimplifyB, or_simplify_subexprs]
  split
  · rename_i heq
    rw [orKeptBv, heq] at h
    simp at h
  · rename_i c' hc' heq
    rw [orKeptBv, heq] at h
    simp at h
    simp [h]
  · rename_i m hsz hnil hone heq
    rw [orKeptBv, heq] at h
    exact absurd h (hone c)

/-- The recursive unwrap equation of or_simplify_subexprs (or.c lines
200-270): when the deduplicated children simplify to exactly one Sequence
or Choice whose own quantifier is optional or default, simplifying under
the optional quantifier re-simplifies copies of the inner children under
the outer optional quantifier through and_simplify_subexprs. -/
theorem orSimplifyB_optional_unwrap (l : List Grammar) (c : Grammar)
    (cs' cs₂ : List Grammar)
    (h : orKeptBv [] l = [c])
    (ht : or_opt_unwrap_target c = some cs')
    (hcp : copyListB cs' = some cs₂) :
    orSimplifyB l optionalQB = andSimplifyB cs₂ optionalQB := by
  rw [orSimplifyB, or_simplify_subexprs]
  split
  · rename_i heq
    rw [orKeptBv, heq] at h
    simp at h
  · rename_i c' hc' heq
    rw [orKeptBv, heq] at h
    simp at h
    subst h
    rw [if_neg (by decide), if_pos rfl]
    split
    · rename_i cs'' ht2
      rw [ht] at ht2
      injection ht2 with ht2
      subst ht2
      split
      · rename_i hcp2
        rw [hcp] at hcp2
        cases hcp2
      · rename_i cs₂' hcp2
        rw [hcp] at hcp2
        injection hcp2 with hcp2
        subst hcp2
        rw [andSimplifyB]
        rcases and_simplify_subexprs cs₂ optionalQB with _ | ⟨r, hr⟩ <;> rfl
    · rename_i ht2
      rw [ht] at ht2
      cases ht2
  · rename_i m hsz hnil hone heq
    rw [orKeptBv, heq] at h
    exact absurd h (hone c)

theorem orSimplifyB_single_fallback (l : List Grammar) (q : Quantifier)
    (c : Grammar) (h : orKeptBv [] l = [c]) (hq1 : q ≠ defaultQB)
    (hq2 : q = optionalQB → or_opt_unwrap_target c = none) :
    orSimplifyB l q = andSimplifyB [c] q := by
  rw [orSimplifyB, or_simplify_subexprs]
  split
  · rename_i heq
    rw [orKeptBv, heq] at h
    simp at h
  · rename_i c' hc' heq
    rw [orKeptBv, heq] at h
    simp at h
    subst h
    rw [if_neg hq1]
    by_cases hqo : q = optionalQB
    · rw [if_pos hqo]
      split
      · rename_i cs'' ht2
        rw [hq2 hqo] at ht2
        cases ht2
      · rw [andSimplifyB]
        rcases and_simplify_subexprs [c'] q with _ | ⟨r, hr⟩ <;> rfl
    · rw [if_neg hqo]
      rw [andSimplifyB]
      rcases and_simplify_subexprs [c'] q with _ | ⟨r, hr⟩ <;> rfl
  · rename_i m hsz hnil hone heq
    rw [orKeptBv, heq] at h
    exact absurd h (hone c)

theorem orSimplifyB_multi (l : List Grammar) (q : Quantifier)
    (x y : Grammar) (t : List Grammar)
    (h : orKeptBv [] l = x :: y :: t) :
    orSimplifyB l q =
      if grammatica_quantifier_valid q then some (.or (x :: y :: t) q)
      else none := by
  rw [orSimplifyB, or_simplify_subexprs]
  split
  · rename_i heq
    rw [orKeptBv, heq] at h
    simp at h
  · rename_i c' hc' heq
    rw [orKeptBv, heq] at h
    simp at h
  · rename_i m hsz hnil hone heq
    rw [orKeptBv, heq] at h
    subst h
    split <;> simp

/-- The shape the C4 claim says simplified results never contain at their
root: an optional Sequence whose only child is another Sequence with
optional or default quantifier. -/
def isNestedOptionalSeq : Grammar → Bool
  | .and [.and _ qc] q =>
    decide (q = optionalQB) &&
      (decide (qc = optionalQB) || decide (qc = defaultQB))
  | _ => false

mutual

/-- Whether any subtree has the forbidden nested-optional-Sequence shape. -/
def containsNestedOptionalSeq : Grammar → Bool
  | .string _ => false
  | .charRange _ _ => false
  | .derivationRule _ v => containsNestedOptionalSeq v
  | .and cs q =>
    isNestedOptionalSeq (.and cs q) || containsNestedOptionalSeqList cs
  | .or cs _ => containsNestedOptionalSeqList cs

/-- List version of containsNestedOptionalSeq. -/
def containsNestedOptionalSeqList : List Grammar → Bool
  | [] => false
  | g :: t =>
    containsNestedOptionalSeq g || containsNestedOptionalSeqList t

end

theorem containsNestedOptionalSeqList_eq_false (m : List Grammar) :
    containsNestedOptionalSeqList m = false ↔
      ∀ x ∈ m, containsNestedOptionalSeq x = false := by
  induction m with
  | nil => simp [containsNestedOptionalSeqList]
  | cons g t ih =>
    rw [containsNestedOptionalSeqList]
    simp [ih]

theorem isNestedOptionalSeq_and_inv (cs : List Grammar) (q : Quantifier)
    (h : isNestedOptionalSeq (.and cs q) = true) :
    q = optionalQB ∧ ∃ cs₂ qc, cs = [.and cs₂ qc] ∧
      (qc = optionalQB ∨ qc = defaultQB) := by
  match cs, h with
  | [.and cs₂ qc], h =>
    rw [isNestedOptionalSeq] at h
    simp at h
    exact ⟨h.1, cs₂, qc, rfl, h.2⟩

theorem isNestedOptionalSeq_and_single (c : Grammar) (q : Quantifier)
    (hne : and_opt_unwrap_target c = none ∨ q ≠ optionalQB) :
    isNestedOptionalSeq (.and [c] q) = false := by
  by_contra hc
  simp only [Bool.not_eq_false] at hc
  obtain ⟨hq, cs₂, qc, hcs, hqc⟩ := isNestedOptionalSeq_and_inv [c] q hc
  have hc2 : c = .and cs₂ qc := by
    injection hcs
  rcases hne with hne | hne
  · rw [hc2, and_opt_unwrap_target, if_pos hqc] at hne
    cases hne
  · exact hne hq

theorem isNestedOptionalSeq_and_multi (x y : Grammar) (t : List Grammar)
    (q : Quantifier) :
    isNestedOptionalSeq (.and (x :: y :: t) q) = false := by
  cases x <;> rfl

theorem char_range_simplifyB_clean (rs : List CharRangePair) (neg : Bool)
    (r : Grammar) (h : grammatica_char_range_simplify rs neg = some r) :
    containsNestedOptionalSeq r = false := by
  have hcreate : ∀ r', grammatica_char_range_create rs neg = some r' →
      containsNestedOptionalSeq r' = false := by
    intro r' h'
    rw [grammatica_char_range_create] at h'
    split at h'
    · cases h'
    · split at h'
      · injection h' with h'
        rw [← h']
        rw [containsNestedOptionalSeq]
      · cases h'
  rcases rs with _ | ⟨e, rest⟩
  · rw [grammatica_char_range_simplify.eq_def] at h
    simp at h
  · rcases rest with _ | ⟨e2, rest2⟩
    · rw [grammatica_char_range_simplify.eq_def, if_neg (by simp)] at h
      simp only [] at h
      split at h
      · injection h with h
        rw [← h]
        rw [containsNestedOptionalSeq]
      · exact hcreate r h
    · rw [grammatica_char_range_simplify.eq_def, if_neg (by simp)] at h
      simp only [] at h
      exact hcreate r h

theorem andSimplifyB_optional_unwrap_copyfail (l : List Grammar)
    (c : Grammar) (cs' : List Grammar)
    (h : simplifyEachBv l = [c])
    (ht : and_opt_unwrap_target c = some cs')
    (hcp : copyListB cs' = none) :
    andSimplifyB l optionalQB = none := by
  rw [andSimplifyB, and_simplify_subexprs]
  split
  · rename_i heq
    rw [simplifyEachBv, heq] at h
    simp at h
  · rename_i c' hc' heq
    rw [simplifyEachBv, heq] at h
    simp at h
    subst h
    rw [if_neg (by decide), if_pos rfl]
    split
    · rename_i cs'' ht2
      rw [ht] at ht2
      injection ht2 with ht2
      subst ht2
      split
      · rfl
      · rename_i cs₂' hcp2
        rw [hcp] at hcp2
        cases hcp2
    · rename_i ht2
      rw [ht] at ht2
      cases ht2
  · rename_i m hsz hnil hone heq
    rw [simplifyEachBv, heq] at h
    exact absurd h (hone c)

theorem orSimplifyB_optional_unwrap_copyfail (l : List Grammar)
    (c : Grammar) (cs' : List Grammar)
    (h : orKeptBv [] l = [c])
    (ht : or_opt_unwrap_target c = some cs')
    (hcp : copyListB cs' = none) :
    orSimplifyB l optionalQB = none := by
  rw [orSimplifyB, or_simplify_subexprs]
  split
  · rename_i heq
    rw [orKeptBv, heq] at h
    simp at h
  · rename_i c' hc' heq
    rw [orKeptBv, heq] at h
    simp at h
    subst h
    rw [if_neg (by decide), if_pos rfl]
    split
    · rename_i cs'' ht2
      rw [ht] at ht2
      injection ht2 with ht2
      subst ht2
      split
      · rfl
      · rename_i cs₂' hcp2
        rw [hcp] at hcp2
        cases hcp2
    · rename_i ht2
      rw [ht] at ht2
      cases ht2
  · rename_i m hsz hnil hone heq
    rw [orKeptBv, heq] at h
    exact absurd h (hone c)

theorem simplifyB_clean_aux : ∀ n : Nat,
    (∀ g r, 4 * sizeB g ≤ n → simplifyB g = some r →
      containsNestedOptionalSeq r = false) ∧
    (∀ l q r, 4 * sizeBList l + 2 ≤ n → andSimplifyB l q = some r →
      containsNestedOptionalSeq r = false) ∧
    (∀ l q r, 4 * sizeBList l + 3 ≤ n → orSimplifyB l q = some r →
      containsNestedOptionalSeq r = false) := by
  intro n
  induction n using Nat.strong_induction_on with
  | _ n ih =>
  refine ⟨?_, ?_, ?_⟩
  · intro g r hn hr
    match g with
    | .string v =>
      rw [simplifyB_string] at hr
      split at hr
      · cases hr
      · injection hr with hr
        rw [← hr, containsNestedOptionalSeq]
    | .charRange rs neg =>
      rw [simplifyB_charRange] at hr
      exact char_range_simplifyB_clean rs neg r hr
    | .derivationRule sym v =>
      rw [simplifyB_derivationRule] at hr
      rcases hv : simplifyB v with _ | s
      · rw [hv] at hr
        cases hr
      · rw [hv] at hr
        simp at hr
        have hszg : sizeB (.derivationRule sym v) = 1 + sizeB v := by
          rw [sizeB]
        have hlt : 4 * sizeB v < n := by omega
        have hsv := (ih (4 * sizeB v) hlt).1 v s (le_refl _) hv
        rw [← hr, containsNestedOptionalSeq]
        exact hsv
    | .and cs q =>
      rw [simplifyB_and] at hr
      have hszg : sizeB (.and cs q) = 1 + sizeBList cs := by rw [sizeB]
      have hlt : 4 * sizeBList cs + 2 < n := by omega
      exact (ih _ hlt).2.1 cs q r (le_refl _) hr
    | .or cs q =>
      rw [simplifyB_or] at hr
      have hszg : sizeB (.or cs q) = 1 + sizeBList cs := by rw [sizeB]
      have hlt : 4 * sizeBList cs + 3 < n := by omega
      exact (ih _ hlt).2.2 cs q r (le_refl _) hr
  · intro l q r hn hr
    rcases hsv : simplifyEachBv l with _ | ⟨c, rest⟩
    · rw [andSimplifyB_nil l q hsv] at hr
      cases hr
    · rcases rest with _ | ⟨y, t⟩
      · obtain ⟨g0, hg0l, hg0⟩ := simplifyEachBv_mem l c (by rw [hsv]; simp)
        have hszc : sizeB c ≤ sizeBList l := by
          have h1 := simplifyEachBv_size l
          rw [hsv] at h1
          simp [sizeBList] at h1
          omega
        have hcclean : containsNestedOptionalSeq c = false := by
          have hlt : 4 * sizeB g0 < n := by
            have := sizeB_le_of_mem l g0 hg0l
            omega
          exact (ih _ hlt).1 g0 c (le_refl _) hg0
        by_cases hq : q = defaultQB
        · subst hq
          rw [andSimplifyB_single_default l c hsv] at hr
          injection hr with hr
          rw [← hr]
          exact hcclean
        · by_cases hqo : q = optionalQB
          · subst hqo
            rcases ht : and_opt_unwrap_target c with _ | cs'
            · rw [andSimplifyB_single_rebuild l _ c hsv hq
                (fun _ => ht)] at hr
              split at hr
              · injection hr with hr
                rw [← hr, containsNestedOptionalSeq,
                  isNestedOptionalSeq_and_single c _ (Or.inl ht),
                  containsNestedOptionalSeqList,
                  containsNestedOptionalSeqList, hcclean]
                simp
              · cases hr
            · rcases hcp : copyListB cs' with _ | cs₂
              · rw [andSimplifyB_optional_unwrap_copyfail l c cs'
                  hsv ht hcp] at hr
                cases hr
              · rw [andSimplifyB_optional_unwrap l c cs' cs₂
                  hsv ht hcp] at hr
                have hs1 := and_opt_unwrap_target_size c cs' ht
                have hs2 := copyListB_size cs' cs₂ hcp
                have hlt : 4 * sizeBList cs₂ + 2 < n := by omega
                exact (ih _ hlt).2.1 cs₂ _ r (le_refl _) hr
          · rw [andSimplifyB_single_rebuild l q c hsv hq
              (fun h => absurd h hqo)] at hr
            split at hr
            · injection hr with hr
              rw [← hr, containsNestedOptionalSeq,
                isNestedOptionalSeq_and_single c q (Or.inr hqo),
                containsNestedOptionalSeqList,
                containsNestedOptionalSeqList, hcclean]
              simp
            · cases hr
      · rw [andSimplifyB_multi l q c y t hsv] at hr
        split at hr
        · injection hr with hr
          rw [← hr, containsNestedOptionalSeq, isNestedOptionalSeq_and_multi]
          simp only [Bool.false_or]
          rw [containsNestedOptionalSeqList_eq_false]
          intro x hx
          have hxm : x ∈ simplifyEachBv l := by
            rw [hsv]
            exact hx
          obtain ⟨g0, hg0l, hg0⟩ := simplifyEachBv_mem l x hxm
          have hlt : 4 * sizeB g0 < n := by
            have := sizeB_le_of_mem l g0 hg0l
            omega
          exact (ih _ hlt).1 g0 x (le_refl _) hg0
        · cases hr
  · intro l q r hn hr
    rcases hsv : orKeptBv [] l with _ | ⟨c, rest⟩
    · rw [orSimplifyB_nil l q hsv] at hr
      cases hr
    · rcases rest with _ | ⟨y, t⟩
      · obtain ⟨g0, hg0l, hg0⟩ := orKeptBv_mem l [] c (by rw [hsv]; simp)
        have hszc : sizeB c ≤ sizeBList l := by
          have h1 := orKeptBv_size l []
          rw [hsv] at h1
          simp [sizeBList] at h1
          omega
        have hcclean : containsNestedOptionalSeq c = false := by
          have hlt : 4 * sizeB g0 < n := by
            have := sizeB_le_of_mem l g0 hg0l
            omega
          exact (ih _ hlt).1 g0 c (le_refl _) hg0
        by_cases hq : q = defaultQB
        · subst hq
          rw [orSimplifyB_single_default l c hsv] at hr
          injection hr with hr
          rw [← hr]
          exact hcclean
        · by_cases hqo : q = optionalQB
          · subst hqo
            rcases ht : or_opt_unwrap_target c with _ | cs'
            · rw [orSimplifyB_single_fallback l _ c hsv hq
                (fun _ => ht)] at hr
              have hlt : 4 * sizeBList [c] + 2 < n := by
                simp [sizeBList]
                omega
              exact (ih _ hlt).2.1 [c] _ r (le_refl _) hr
            · rcases hcp : copyListB cs' with _ | cs₂
              · rw [orSimplifyB_optional_unwrap_copyfail l c cs'
                  hsv ht hcp] at hr
                cases hr
              · rw [orSimplifyB_optional_unwrap l c cs' cs₂
                  hsv ht hcp] at hr
                have hs1 := or_opt_unwrap_target_size c cs' ht
                have hs2 := copyListB_size cs' cs₂ hcp
                have hlt : 4 * sizeBList cs₂ + 2 < n := by omega
                exact (ih _ hlt).2.1 cs₂ _ r (le_refl _) hr
          · rw [orSimplifyB_single_fallback l q c hsv hq
              (fun h => absurd h hqo)] at hr
            have hlt : 4 * sizeBList [c] + 2 < n := by
              simp [sizeBList]
              omega
            exact (ih _ hlt).2.1 [c] q r (le_refl _) hr
      · rw [orSimplifyB_multi l q c y t hsv] at hr
        split at hr
        · injection hr with hr
          rw [← hr, containsNestedOptionalSeq]
          rw [containsNestedOptionalSeqList_eq_false]
          intro x hx
          have hxm : x ∈ orKeptBv [] l := by
            rw [hsv]
            exact hx
          obtain ⟨g0, hg0l, hg0⟩ := orKeptBv_mem l [] x hxm
          have hlt : 4 * sizeB g0 < n := by
            have := sizeB_le_of_mem l g0 hg0l
            omega
          exact (ih _ hlt).1 g0 x (le_refl _) hg0
        · cases hr

/-- C4: the two cited implementations diverge.  In and.c (family B), when
the children of a Sequence simplify to exactly one non-empty child and the
Sequence's quantifier is the optional shape, and that remaining child is
itself a Sequence whose own quantifier is optional or default, simplify
re-simplifies (copies of) the inner child's subexpressions under the outer
optional quantifier, and consequently no family B simplified result ever
contains an optional Sequence whose only child is another optional or
default-quantified Sequence (the second and third conjuncts).  But
grammar_simplify of grammar/grammar.c (family A, equally cited by the
claim) has no such unwrap branch: the first conjunct shows that the
optional Sequence whose only child is an optional Sequence is returned
unchanged by family A simplification, so its own output contains exactly
the shape the claim says never survives. -/
theorem c4_nested_optional_collapse :
    grammaticaGrammarSimplify
        (.grammar [.grammar [.string [97]] ⟨0, 1⟩] ⟨0, 1⟩) =
      some (.grammar [.grammar [.string [97]] ⟨0, 1⟩] ⟨0, 1⟩) ∧
    (∀ (cs : List Grammar) (c : Grammar) (cs' cs₂ : List Grammar),
      simplifyEachBv cs = [c] →
      and_opt_unwrap_target c = some cs' →
      copyListB cs' = some cs₂ →
      simplifyB (.and cs optionalQB) = andSimplifyB cs₂ optionalQB) ∧
    (∀ g r : Grammar, simplifyB g = some r →
      containsNestedOptionalSeq r = false) := by
  refine ⟨?_, ?_, ?_⟩
  · simp [grammaticaGrammarSimplify, simplifySubexprs,
      grammaticaMergeAdjacentStrings, mergeStringRun,
      grammaticaGrammarCreate, grammaticaValidateQuantifier]
  · intro cs c cs' cs₂ h ht hcp
    rw [simplifyB_and]
    exact andSimplifyB_optional_unwrap cs c cs' cs₂ h ht hcp
  · intro g r hr
    exact (simplifyB_clean_aux (4 * sizeB g)).1 g r (le_refl _) hr

theorem c4_nested_optional_collapse_witness :
    simplifyB (.and [Grammar.and [.string [97], .string [98]] optionalQB]
        optionalQB) =
      andSimplifyB [.string [97], .string [98]] optionalQB ∧
    containsNestedOptionalSeq (.string [97]) = false := by
  have hab : simplifyEachBv [Grammar.string [97], .string [98]] =
      [.string [97], .string [98]] := by
    rw [simplifyEachBv_cons, simplifyB_string]
    rw [simplifyEachBv_cons, simplifyB_string, simplifyEachBv_nil]
    simp
  have hinner : simplifyB
      (Grammar.and [.string [97], .string [98]] optionalQB) =
      some (.and [.string [97], .string [98]] optionalQB) := by
    rw [simplifyB_and,
      andSimplifyB_multi _ optionalQB (.string [97]) (.string [98]) [] hab,
      if_pos (by decide)]
  have h1 : simplifyEachBv
      [Grammar.and [.string [97], .string [98]] optionalQB] =
      [.and [.string [97], .string [98]] optionalQB] := by
    rw [simplifyEachBv_cons, hinner, simplifyEachBv_nil]
  refine ⟨c4_nested_optional_collapse.2.1 _ _ _ _ h1 rfl rfl,
    c4_nested_optional_collapse.2.2 (.string [97]) (.string [97]) ?_⟩
  rw [simplifyB_string]
  simp

/-! ## Constructibility and simplified form for family A (claim C6) -/

/-- The stored-range shape produced by grammaticaCharRangeCreate: entries
sorted by start, each pair of consecutive stored entries failing the merge
test of merge_ranges (with the uint32_t wrap-around, as in the code). -/
def rangeChain : List GrammaticaCharRangeEntry → Bool
  | [] => true
  | [_] => true
  | a :: b :: t =>
    (a.start ≤ b.start && (a.stop + 1) % U32 < b.start) &&
      rangeChain (b :: t)

/-- Well-formedness of a stored range list: non-empty, valid entries, and
stable under re-merging (every list stored by grammaticaCharRangeCreate
has this shape). -/
def rangeWF (rs : List GrammaticaCharRangeEntry) : Bool :=
  !rs.isEmpty && rs.all (fun e => e.start ≤ e.stop) && rangeChain rs

/-- The shape char_range_simplify collapses to a StringLiteral: a single
single-character entry with negate false. -/
def collapseShape (rs : List GrammaticaCharRangeEntry) (neg : Bool) : Bool :=
  match rs with
  | [e] => e.start == e.stop && !neg
  | _ => false

/-- No two adjacent StringLiteral children. -/
def noAdjacentStrings : List GrammaticaGrammar → Bool
  | .string _ :: .string _ :: _ => false
  | _ :: t => noAdjacentStrings t
  | [] => true

/-- No child structurally equal (through grammaticaGrammarEquals with
check_quantifier true) to a later child. -/
def pairwiseDistinctA : List GrammaticaGrammar → Bool
  | [] => true
  | g :: t =>
    !(t.any fun j => grammaticaGrammarEquals g j true) &&
      pairwiseDistinctA t

mutual

/-- Constructibility of a family A tree: every CharRange subtree holds a
list that grammaticaCharRangeCreate can have stored, and every Sequence
and Choice quantifier passes grammaticaValidateQuantifier (construction
validates it). -/
def constructibleA : GrammaticaGrammar → Bool
  | .string _ => true
  | .charRange rs _ => rangeWF rs
  | .derivationRule _ v => constructibleA v
  | .grammar cs q => grammaticaValidateQuantifier q && constructibleAList cs
  | .or cs q => grammaticaValidateQuantifier q && constructibleAList cs

/-- List version of constructibleA. -/
def constructibleAList : List GrammaticaGrammar → Bool
  | [] => true
  | g :: t => constructibleA g && constructibleAList t

end

mutual

/-- No subtree is a non-negated single-entry single-character CharRange
whose code point is congruent to 0 modulo 256 (whose char cast is the NUL
byte; such a subtree simplifies to an empty StringLiteral and breaks
idempotence). -/
def noNulCollapseA : GrammaticaGrammar → Bool
  | .string _ => true
  | .charRange rs neg =>
    match rs, neg with
    | [e], false => !(e.start == e.stop && e.start % 256 == 0)
    | _, _ => true
  | .derivationRule _ v => noNulCollapseA v
  | .grammar cs _ => noNulCollapseAList cs
  | .or cs _ => noNulCollapseAList cs

/-- List version of noNulCollapseA. -/
def noNulCollapseAList : List GrammaticaGrammar → Bool
  | [] => true
  | g :: t => noNulCollapseA g && noNulCollapseAList t

end

mutual

/-- Characterization of the outputs of grammaticaGrammarSimplify: such
trees are fixed points of simplification. -/
def simplifiedFormA : GrammaticaGrammar → Bool
  | .string v => !v.isEmpty
  | .charRange rs neg => rangeWF rs && !collapseShape rs neg
  | .derivationRule _ v => simplifiedFormA v
  | .grammar cs q =>
    grammaticaValidateQuantifier q && !cs.isEmpty &&
      simplifiedFormAList cs && noAdjacentStrings cs &&
      !(cs.length == 1 && (q.min == 1 && q.max == 1))
  | .or cs q =>
    grammaticaValidateQuantifier q && !cs.isEmpty &&
      simplifiedFormAList cs && pairwiseDistinctA cs &&
      !(cs.length == 1 && (q.min == 1 && q.max == 1))

/-- List version of simplifiedFormA. -/
def simplifiedFormAList : List GrammaticaGrammar → Bool
  | [] => true
  | g :: t => simplifiedFormA g && simplifiedFormAList t

end

mutual

/-- Node count of a family A tree, the induction measure for claim C6. -/
def sizeA : GrammaticaGrammar → Nat
  | .string _ => 1
  | .charRange _ _ => 1
  | .derivationRule _ v => 1 + sizeA v
  | .grammar cs _ => 1 + sizeAList cs
  | .or cs _ => 1 + sizeAList cs

/-- Total node count of a list of family A trees. -/
def sizeAList : List GrammaticaGrammar → Nat
  | [] => 0
  | g :: t => sizeA g + sizeAList t

end

theorem sizeA_pos (g : GrammaticaGrammar) : 1 ≤ sizeA g := by
  cases g <;> simp [sizeA]

theorem sizeA_le_of_mem (m : List GrammaticaGrammar)
    (x : GrammaticaGrammar) (hx : x ∈ m) : sizeA x ≤ sizeAList m := by
  induction m with
  | nil => cases hx
  | cons y t ih =>
    rcases List.mem_cons.mp hx with rfl | hx'
    · simp [sizeAList]
    · have := ih hx'
      simp [sizeAList]
      omega

theorem constructibleAList_iff (l : List GrammaticaGrammar) :
    constructibleAList l = true ↔ ∀ x ∈ l, constructibleA x = true := by
  induction l with
  | nil => simp [constructibleAList]
  | cons g t ih =>
    rw [constructibleAList]
    simp [ih]

theorem noNulCollapseAList_iff (l : List GrammaticaGrammar) :
    noNulCollapseAList l = true ↔ ∀ x ∈ l, noNulCollapseA x = true := by
  induction l with
  | nil => simp [noNulCollapseAList]
  | cons g t ih =>
    rw [noNulCollapseAList]
    simp [ih]

theorem simplifiedFormAList_iff (l : List GrammaticaGrammar) :
    simplifiedFormAList l = true ↔ ∀ x ∈ l, simplifiedFormA x = true := by
  induction l with
  | nil => simp [simplifiedFormAList]
  | cons g t ih =>
    rw [simplifiedFormAList]
    simp [ih]

theorem any_equalsA_iff (x : GrammaticaGrammar)
    (acc : List GrammaticaGrammar) :
    (acc.any fun j => grammaticaGrammarEquals x j true) = true ↔
      x ∈ acc := by
  rw [List.any_eq_true]
  constructor
  · rintro ⟨j, hj, heq⟩
    rw [(grammaticaGrammarEquals_true_iff x j).mp heq]
    exact hj
  · intro hx
    exact ⟨x, hx, (grammaticaGrammarEquals_true_iff x x).mpr rfl⟩

theorem rangeChain_sorted : ∀ rs : List GrammaticaCharRangeEntry,
    rangeChain rs = true → rs.Chain' rangeLe
  | [], _ => List.chain'_nil
  | [e], _ => List.chain'_singleton e
  | a :: b :: t, h => by
    rw [rangeChain] at h
    simp only [Bool.and_eq_true] at h
    refine List.chain'_cons.mpr
      ⟨of_decide_eq_true h.1.1, rangeChain_sorted (b :: t) h.2⟩

theorem rangeChain_sep : ∀ rs : List GrammaticaCharRangeEntry,
    rangeChain rs = true →
    rs.Chain' (fun a b => (a.stop + 1) % U32 < b.start)
  | [], _ => List.chain'_nil
  | [e], _ => List.chain'_singleton e
  | a :: b :: t, h => by
    rw [rangeChain] at h
    simp only [Bool.and_eq_true, decide_eq_true_eq] at h
    exact List.chain'_cons.mpr ⟨h.1.2, rangeChain_sep (b :: t) h.2⟩

theorem mergeSweep_stable : ∀ (t : List GrammaticaCharRangeEntry)
    (cur : GrammaticaCharRangeEntry),
    (cur :: t).Chain' (fun a b => (a.stop + 1) % U32 < b.start) →
    mergeSweep cur t = cur :: t
  | [], cur, _ => rfl
  | e :: t, cur, h => by
    have h1 := List.chain'_cons.mp h
    rw [mergeSweep, if_neg (by omega), mergeSweep_stable t e h1.2]

theorem merge_ranges_stable (rs : List GrammaticaCharRangeEntry)
    (h : rangeWF rs = true) : merge_ranges rs = rs := by
  rw [rangeWF] at h
  simp only [Bool.and_eq_true] at h
  rw [merge_ranges]
  split
  · rfl
  · have hsorted : rs.Sorted rangeLe :=
      List.chain'_iff_pairwise.mp (rangeChain_sorted rs h.2)
    rw [hsorted.insertionSort_eq]
    match rs, h with
    | e :: t, h => exact mergeSweep_stable t e (rangeChain_sep _ h.2)

theorem charRangeCreate_stable (rs : List GrammaticaCharRangeEntry)
    (neg : Bool) (h : rangeWF rs = true) :
    grammaticaCharRangeCreate rs neg = some (.charRange rs neg) := by
  have hwf := h
  rw [rangeWF] at h
  simp only [Bool.and_eq_true] at h
  rw [grammaticaCharRangeCreate,
    if_neg (by simpa using h.1.1), if_pos h.1.2, merge_ranges_stable rs hwf]

theorem simplifySubexprs_pointwise (l : List GrammaticaGrammar)
    (h : ∀ x ∈ l, grammaticaGrammarSimplify x = some x) :
    simplifySubexprs l = l := by
  induction l with
  | nil => rw [simplifySubexprs]
  | cons g t ih =>
    rw [simplifySubexprs, h g (by simp)]
    rw [ih (fun x hx => h x (List.mem_cons_of_mem g hx))]

theorem simplifySubexprs_mem (l : List GrammaticaGrammar)
    (x : GrammaticaGrammar) (hx : x ∈ simplifySubexprs l) :
    ∃ g ∈ l, grammaticaGrammarSimplify g = some x := by
  induction l with
  | nil =>
    rw [simplifySubexprs] at hx
    cases hx
  | cons g t ih =>
    rw [simplifySubexprs] at hx
    rcases hg : grammaticaGrammarSimplify g with _ | s
    · rw [hg] at hx
      obtain ⟨y, hy, h⟩ := ih hx
      exact ⟨y, List.mem_cons_of_mem g hy, h⟩
    · rw [hg] at hx
      rcases List.mem_cons.mp hx with rfl | hx'
      · exact ⟨g, by simp, hg⟩
      · obtain ⟨y, hy, h⟩ := ih hx'
        exact ⟨y, List.mem_cons_of_mem g hy, h⟩

theorem orSimplifyKept_mem (l : List GrammaticaGrammar) :
    ∀ (acc : List GrammaticaGrammar) (x : GrammaticaGrammar),
    x ∈ orSimplifyKept acc l →
    x ∈ acc ∨ ∃ g ∈ l, grammaticaGrammarSimplify g = some x := by
  induction l with
  | nil =>
    intro acc x hx
    rw [orSimplifyKept] at hx
    exact Or.inl hx
  | cons g t ih =>
    intro acc x hx
    rw [orSimplifyKept] at hx
    rcases hg : grammaticaGrammarSimplify g with _ | s
    · rw [hg] at hx
      rcases ih acc x hx with h | ⟨y, hy, h⟩
      · exact Or.inl h
      · exact Or.inr ⟨y, List.mem_cons_of_mem g hy, h⟩
    · rw [hg] at hx
      simp only [] at hx
      by_cases hdup : (acc.any fun j => grammaticaGrammarEquals s j true) =
          true
      · rw [if_pos hdup] at hx
        rcases ih acc x hx with h | ⟨y, hy, h⟩
        · exact Or.inl h
        · exact Or.inr ⟨y, List.mem_cons_of_mem g hy, h⟩
      · rw [if_neg hdup] at hx
        rcases ih (acc ++ [s]) x hx with h | ⟨y, hy, h⟩
        · rcases List.mem_append.mp h with h' | h'
          · exact Or.inl h'
          · simp at h'
            exact Or.inr ⟨g, by simp, h' ▸ hg⟩
        · exact Or.inr ⟨y, List.mem_cons_of_mem g hy, h⟩

theorem pairwiseDistinctA_append_single (acc : List GrammaticaGrammar)
    (x : GrammaticaGrammar) (h : pairwiseDistinctA acc = true)
    (hx : x ∉ acc) : pairwiseDistinctA (acc ++ [x]) = true := by
  induction acc with
  | nil =>
    rw [List.nil_append, pairwiseDistinctA, pairwiseDistinctA]
    simp [List.any_nil]
  | cons a acc ih =>
    rw [pairwiseDistinctA] at h
    simp only [Bool.and_eq_true] at h
    rw [List.cons_append, pairwiseDistinctA]
    simp only [Bool.and_eq_true]
    refine ⟨?_, ih h.2 (fun hm => hx (List.mem_cons_of_mem a hm))⟩
    rw [Bool.not_eq_true', List.any_append, Bool.or_eq_false_iff]
    refine ⟨by simpa using h.1, ?_⟩
    simp only [List.any_cons, List.any_nil, Bool.or_false]
    cases hc : grammaticaGrammarEquals a x true with
    | false => rfl
    | true =>
      rw [(grammaticaGrammarEquals_true_iff a x).mp hc] at hx
      exact absurd (List.mem_cons_self x acc) hx

theorem orSimplifyKept_distinct (l : List GrammaticaGrammar) :
    ∀ acc : List GrammaticaGrammar, pairwiseDistinctA acc = true →
    pairwiseDistinctA (orSimplifyKept acc l) = true := by
  induction l with
  | nil =>
    intro acc h
    rw [orSimplifyKept]
    exact h
  | cons g t ih =>
    intro acc h
    rw [orSimplifyKept]
    rcases hg : grammaticaGrammarSimplify g with _ | s
    · exact ih acc h
    · simp only []
      by_cases hdup : (acc.any fun j => grammaticaGrammarEquals s j true) =
          true
      · rw [if_pos hdup]
        exact ih acc h
      · rw [if_neg hdup]
        refine ih (acc ++ [s]) ?_
        refine pairwiseDistinctA_append_single acc s h ?_
        intro hm
        exact hdup ((any_equalsA_iff s acc).mpr hm)

theorem orSimplifyKept_eq_append (l : List GrammaticaGrammar) :
    ∀ acc : List GrammaticaGrammar,
    (∀ x ∈ l, grammaticaGrammarSimplify x = some x) →
    pairwiseDistinctA l = true →
    (∀ x ∈ l, x ∉ acc) →
    orSimplifyKept acc l = acc ++ l := by
  induction l with
  | nil =>
    intro acc _ _ _
    rw [orSimplifyKept, List.append_nil]
  | cons c t ih =>
    intro acc hpt hdist hnotin
    rw [pairwiseDistinctA] at hdist
    simp only [Bool.and_eq_true] at hdist
    rw [orSimplifyKept, hpt c (by simp)]
    simp only []
    rw [if_neg ?_]
    · rw [ih (acc ++ [c]) (fun x hx => hpt x (List.mem_cons_of_mem c hx))
        hdist.2 ?_]
      · simp
      · intro x hx hmem
        rcases List.mem_append.mp hmem with h' | h'
        · exact hnotin x (List.mem_cons_of_mem c hx) h'
        · simp at h'
          have h1 : (t.any fun j => grammaticaGrammarEquals c j true) =
              false := by simpa using hdist.1
          have h2 : (t.any fun j => grammaticaGrammarEquals c j true) =
              true := List.any_eq_true.mpr ⟨x, hx,
            (grammaticaGrammarEquals_true_iff c x).mpr h'.symm⟩
          rw [h1] at h2
          exact Bool.false_ne_true h2
    · intro hc
      exact hnotin c (by simp) ((any_equalsA_iff c acc).mp hc)

theorem stringOrNot (g : GrammaticaGrammar) :
    (∃ v, g = .string v) ∨ (∀ v, g ≠ .string v) := by
  cases g <;> simp

theorem mergeAdj_cons_nonstring (g : GrammaticaGrammar)
    (t : List GrammaticaGrammar) (h : ∀ v, g ≠ .string v) :
    grammaticaMergeAdjacentStrings (g :: t) =
      g :: grammaticaMergeAdjacentStrings t := by
  cases g with
  | string v => exact absurd rfl (h v)
  | charRange rs neg =>
    rw [grammaticaMergeAdjacentStrings]
    all_goals simp
  | derivationRule s v =>
    rw [grammaticaMergeAdjacentStrings]
    all_goals simp
  | grammar cs q =>
    rw [grammaticaMergeAdjacentStrings]
    all_goals simp
  | or cs q =>
    rw [grammaticaMergeAdjacentStrings]
    all_goals simp

theorem mergeStringRun_cons_nonstring (acc : List Nat)
    (g : GrammaticaGrammar) (t : List GrammaticaGrammar)
    (h : ∀ v, g ≠ .string v) :
    mergeStringRun acc (g :: t) =
      .string acc :: grammaticaMergeAdjacentStrings (g :: t) := by
  cases g with
  | string v => exact absurd rfl (h v)
  | charRange rs neg =>
    rw [mergeStringRun]
    all_goals simp
  | derivationRule s v =>
    rw [mergeStringRun]
    all_goals simp
  | grammar cs q =>
    rw [mergeStringRun]
    all_goals simp
  | or cs q =>
    rw [mergeStringRun]
    all_goals simp

theorem noAdjacentStrings_cons_nonstring (g : GrammaticaGrammar)
    (t : List GrammaticaGrammar) (h : ∀ v, g ≠ .string v) :
    noAdjacentStrings (g :: t) = noAdjacentStrings t := by
  cases g with
  | string v => exact absurd rfl (h v)
  | charRange rs neg =>
    rw [noAdjacentStrings]
    all_goals simp
  | derivationRule s v =>
    rw [noAdjacentStrings]
    all_goals simp
  | grammar cs q =>
    rw [noAdjacentStrings]
    all_goals simp
  | or cs q =>
    rw [noAdjacentStrings]
    all_goals simp

theorem noAdjacentStrings_string_cons_nonstring (v : List Nat)
    (g : GrammaticaGrammar) (t : List GrammaticaGrammar)
    (h : ∀ w, g ≠ .string w) :
    noAdjacentStrings (.string v :: g :: t) =
      noAdjacentStrings (g :: t) := by
  cases g with
  | string w => exact absurd rfl (h w)
  | charRange rs neg =>
    rw [noAdjacentStrings]
    all_goals simp
  | derivationRule s w =>
    rw [noAdjacentStrings]
    all_goals simp
  | grammar cs q =>
    rw [noAdjacentStrings]
    all_goals simp
  | or cs q =>
    rw [noAdjacentStrings]
    all_goals simp

theorem noAdjacentStrings_singleton (x : GrammaticaGrammar) :
    noAdjacentStrings [x] = true := by
  cases x
  all_goals rw [noAdjacentStrings, noAdjacentStrings]
  all_goals simp

theorem mergeStringRun_nil (acc : List Nat) :
    mergeStringRun acc [] = [.string acc] := by
  rw [mergeStringRun, grammaticaMergeAdjacentStrings]
  all_goals simp

theorem mergeAdj_of_noAdjacent : ∀ (n : Nat) (l : List GrammaticaGrammar),
    l.length ≤ n → noAdjacentStrings l = true →
    grammaticaMergeAdjacentStrings l = l := by
  intro n
  induction n with
  | zero =>
    intro l hl _
    cases l with
    | nil => rw [grammaticaMergeAdjacentStrings]
    | cons g t => simp at hl
  | succ n ih =>
    intro l hl hno
    cases l with
    | nil => rw [grammaticaMergeAdjacentStrings]
    | cons g t =>
      rcases stringOrNot g with ⟨v, rfl⟩ | hns
      · rw [grammaticaMergeAdjacentStrings]
        cases t with
        | nil => rw [mergeStringRun_nil]
        | cons h t' =>
          rcases stringOrNot h with ⟨w, rfl⟩ | hns'
          · rw [noAdjacentStrings] at hno
            simp at hno
          · rw [mergeStringRun_cons_nonstring v h t' hns',
              mergeAdj_cons_nonstring h t' hns']
            rw [noAdjacentStrings_string_cons_nonstring v h t' hns',
              noAdjacentStrings_cons_nonstring h t' hns'] at hno
            rw [ih t' (by simp at hl; omega) hno]
      · rw [mergeAdj_cons_nonstring g t hns]
        rw [noAdjacentStrings_cons_nonstring g t hns] at hno
        rw [ih t (by simp at hl; omega) hno]

theorem mergeAdj_id (l : List GrammaticaGrammar)
    (h : noAdjacentStrings l = true) :
    grammaticaMergeAdjacentStrings l = l :=
  mergeAdj_of_noAdjacent l.length l (Nat.le_refl _) h

theorem mergeAdjPreserve : ∀ n : Nat,
    (∀ l : List GrammaticaGrammar, l.length ≤ n →
      (∀ x ∈ l, simplifiedFormA x = true) →
      (∀ x ∈ grammaticaMergeAdjacentStrings l, simplifiedFormA x = true) ∧
      noAdjacentStrings (grammaticaMergeAdjacentStrings l) = true ∧
      (l ≠ [] → grammaticaMergeAdjacentStrings l ≠ [])) ∧
    (∀ (acc : List Nat) (l : List GrammaticaGrammar), l.length ≤ n →
      acc ≠ [] → (∀ x ∈ l, simplifiedFormA x = true) →
      (∀ x ∈ mergeStringRun acc l, simplifiedFormA x = true) ∧
      noAdjacentStrings (mergeStringRun acc l) = true ∧
      mergeStringRun acc l ≠ []) := by
  intro n
  induction n with
  | zero =>
    constructor
    · intro l hl _
      have hnil : l = [] := by
        cases l with
        | nil => rfl
        | cons a t => simp at hl
      subst hnil
      rw [grammaticaMergeAdjacentStrings]
      exact ⟨by simp, rfl, fun h => absurd rfl h⟩
    · intro acc l hl hacc _
      have hnil : l = [] := by
        cases l with
        | nil => rfl
        | cons a t => simp at hl
      subst hnil
      rw [mergeStringRun_nil]
      have hie : acc.isEmpty = false := by
        cases acc with
        | nil => exact absurd rfl hacc
        | cons a t => rfl
      refine ⟨?_, by rw [noAdjacentStrings_singleton], by simp⟩
      intro x hx
      simp at hx
      subst hx
      rw [simplifiedFormA, hie]
      rfl
  | succ n ih =>
    obtain ⟨ihP, ihQ⟩ := ih
    constructor
    · intro l hl hsf
      cases l with
      | nil =>
        rw [grammaticaMergeAdjacentStrings]
        exact ⟨by simp, rfl, fun h => absurd rfl h⟩
      | cons g rest =>
        rcases stringOrNot g with ⟨v, rfl⟩ | hns
        · rw [grammaticaMergeAdjacentStrings]
          have hv : v ≠ [] := by
            have h1 := hsf (.string v) (by simp)
            rw [simplifiedFormA] at h1
            intro h0
            subst h0
            simp at h1
          have hlen : rest.length ≤ n := by simp at hl; omega
          obtain ⟨a, b, c⟩ := ihQ v rest hlen hv
            (fun x hx => hsf x (List.mem_cons_of_mem _ hx))
          exact ⟨a, b, fun _ => c⟩
        · rw [mergeAdj_cons_nonstring g rest hns]
          have hlen : rest.length ≤ n := by simp at hl; omega
          obtain ⟨a, b, _⟩ := ihP rest hlen
            (fun x hx => hsf x (List.mem_cons_of_mem _ hx))
          refine ⟨?_, ?_, fun _ => by simp⟩
          · intro x hx
            rcases List.mem_cons.mp hx with rfl | hx'
            · exact hsf x (by simp)
            · exact a x hx'
          · rw [noAdjacentStrings_cons_nonstring g _ hns]
            exact b
    · intro acc l hl hacc hsf
      cases l with
      | nil =>
        rw [mergeStringRun_nil]
        have hie : acc.isEmpty = false := by
          cases acc with
          | nil => exact absurd rfl hacc
          | cons a t => rfl
        refine ⟨?_, by rw [noAdjacentStrings_singleton], by simp⟩
        intro x hx
        simp at hx
        subst hx
        rw [simplifiedFormA, hie]
        rfl
      | cons g rest =>
        rcases stringOrNot g with ⟨v, rfl⟩ | hns
        · rw [mergeStringRun]
          have hlen : rest.length ≤ n := by simp at hl; omega
          have hne : acc ++ v ≠ [] :=
            fun h => hacc (List.append_eq_nil.mp h).1
          exact ihQ (acc ++ v) rest hlen hne
            (fun x hx => hsf x (List.mem_cons_of_mem _ hx))
        · rw [mergeStringRun_cons_nonstring acc g rest hns,
            mergeAdj_cons_nonstring g rest hns]
          have hlen : rest.length ≤ n := by simp at hl; omega
          obtain ⟨a, b, _⟩ := ihP rest hlen
            (fun x hx => hsf x (List.mem_cons_of_mem _ hx))
          have hie : acc.isEmpty = false := by
            cases acc with
            | nil => exact absurd rfl hacc
            | cons x t => rfl
          refine ⟨?_, ?_, by simp⟩
          · intro x hx
            rcases List.mem_cons.mp hx with rfl | hx'
            · rw [simplifiedFormA, hie]
              rfl
            · rcases List.mem_cons.mp hx' with rfl | hx''
              · exact hsf _ (by simp)
              · exact a x hx''
          · rw [noAdjacentStrings_string_cons_nonstring acc g _ hns,
              noAdjacentStrings_cons_nonstring g _ hns]
            exact b

theorem simplify_grammar_eq (cs : List GrammaticaGrammar)
    (q : GrammaticaQuantifier) :
    grammaticaGrammarSimplify (.grammar cs q) =
      (if simplifySubexprs cs = [] then none
       else
         match grammaticaMergeAdjacentStrings (simplifySubexprs cs) with
         | [x] =>
           if q.min = 1 ∧ q.max = 1 then some x
           else grammaticaGrammarCreate [x] q
         | m => grammaticaGrammarCreate m q) := by
  rw [grammaticaGrammarSimplify]

theorem simplify_or_eq (cs : List GrammaticaGrammar)
    (q : GrammaticaQuantifier) :
    grammaticaGrammarSimplify (.or cs q) =
      (match orSimplifyKept [] cs with
       | [] => none
       | [x] =>
         if q.min = 1 ∧ q.max = 1 then some x
         else grammaticaOrCreate [x] q
       | m => grammaticaOrCreate m q) := by
  rw [grammaticaGrammarSimplify]

theorem char_range_simplify_stable (rs : List GrammaticaCharRangeEntry)
    (neg : Bool) (hwf : rangeWF rs = true)
    (hcol : collapseShape rs neg = false) :
    char_range_simplify rs neg = some (.charRange rs neg) := by
  have hne : rs ≠ [] := by
    rw [rangeWF] at hwf
    simp only [Bool.and_eq_true] at hwf
    intro h0
    subst h0
    simp at hwf
  rcases rs with _ | ⟨e, _ | ⟨f, t⟩⟩
  · exact absurd rfl hne
  · have hcond : ¬(e.start = e.stop ∧ neg = false) := by
      rintro ⟨h1, h2⟩
      subst h2
      rw [collapseShape] at hcol
      simp [h1] at hcol
    rw [char_range_simplify.eq_def]
    simp only [List.cons_ne_nil, if_false, hcond, ite_false]
    exact charRangeCreate_stable [e] neg hwf
  · rw [char_range_simplify.eq_def]
    simp only [List.cons_ne_nil, if_false]
    exact charRangeCreate_stable (e :: f :: t) neg hwf

theorem simplifyA_aux : ∀ n : Nat,
    (∀ g : GrammaticaGrammar, sizeA g ≤ n → simplifiedFormA g = true →
      grammaticaGrammarSimplify g = some g) ∧
    (∀ g : GrammaticaGrammar, sizeA g ≤ n → constructibleA g = true →
      noNulCollapseA g = true →
      grammaticaGrammarSimplify g = none ∨
        ∃ y, grammaticaGrammarSimplify g = some y ∧
          simplifiedFormA y = true) := by
  intro n
  induction n using Nat.strong_induction_on with
  | _ n ih =>
  constructor
  · intro g hsz hsf
    cases g with
    | string v =>
      have hv : ¬ v = [] := by
        intro h0
        subst h0
        rw [simplifiedFormA] at hsf
        simp at hsf
      rw [grammaticaGrammarSimplify, if_neg hv]
    | charRange rs neg =>
      rw [simplifiedFormA] at hsf
      simp only [Bool.and_eq_true, Bool.not_eq_true'] at hsf
      rw [grammaticaGrammarSimplify]
      exact char_range_simplify_stable rs neg hsf.1 hsf.2
    | derivationRule sym val =>
      rw [simplifiedFormA] at hsf
      rw [grammaticaGrammarSimplify]
      have hlt : sizeA val < n := by
        rw [sizeA] at hsz
        omega
      rw [(ih (sizeA val) hlt).1 val (Nat.le_refl _) hsf]
      rfl
    | grammar cs q =>
      rw [simplifiedFormA] at hsf
      simp only [Bool.and_eq_true, Bool.not_eq_true'] at hsf
      obtain ⟨⟨⟨⟨hq, hne⟩, hsfl⟩, hnadj⟩, hnsingle⟩ := hsf
      have hcs : cs ≠ [] := by
        intro h0
        subst h0
        simp at hne
      have hpt : ∀ x ∈ cs, grammaticaGrammarSimplify x = some x := by
        intro x hx
        have hlt : sizeA x < n := by
          have h1 := sizeA_le_of_mem cs x hx
          rw [sizeA] at hsz
          omega
        exact (ih (sizeA x) hlt).1 x (Nat.le_refl _)
          ((simplifiedFormAList_iff cs).mp hsfl x hx)
      rw [simplify_grammar_eq, simplifySubexprs_pointwise cs hpt,
        if_neg hcs, mergeAdj_id cs hnadj]
      rcases cs with _ | ⟨x, _ | ⟨z, t⟩⟩
      · exact absurd rfl hcs
      · have hq1 : ¬(q.min = 1 ∧ q.max = 1) := by
          rintro ⟨ha, hb⟩
          simp [ha, hb] at hnsingle
        simp only []
        rw [if_neg hq1, grammaticaGrammarCreate, if_pos hq]
      · simp only []
        rw [grammaticaGrammarCreate, if_pos hq]
    | or cs q =>
      rw [simplifiedFormA] at hsf
      simp only [Bool.and_eq_true, Bool.not_eq_true'] at hsf
      obtain ⟨⟨⟨⟨hq, hne⟩, hsfl⟩, hdist⟩, hnsingle⟩ := hsf
      have hcs : cs ≠ [] := by
        intro h0
        subst h0
        simp at hne
      have hpt : ∀ x ∈ cs, grammaticaGrammarSimplify x = some x := by
        intro x hx
        have hlt : sizeA x < n := by
          have h1 := sizeA_le_of_mem cs x hx
          rw [sizeA] at hsz
          omega
        exact (ih (sizeA x) hlt).1 x (Nat.le_refl _)
          ((simplifiedFormAList_iff cs).mp hsfl x hx)
      rw [simplify_or_eq, orSimplifyKept_eq_append cs [] hpt hdist
        (fun x _ hmem => List.not_mem_nil x hmem), List.nil_append]
      rcases cs with _ | ⟨x, _ | ⟨z, t⟩⟩
      · exact absurd rfl hcs
      · have hq1 : ¬(q.min = 1 ∧ q.max = 1) := by
          rintro ⟨ha, hb⟩
          simp [ha, hb] at hnsingle
        simp only []
        rw [if_neg hq1, grammaticaOrCreate, if_pos hq]
      · simp only []
        rw [grammaticaOrCreate, if_pos hq]
  · intro g hsz hcon hnul
    cases g with
    | string v =>
      rw [grammaticaGrammarSimplify]
      by_cases hv : v = []
      · exact Or.inl (by rw [if_pos hv])
      · refine Or.inr ⟨.string v, by rw [if_neg hv], ?_⟩
        rw [simplifiedFormA]
        cases v with
        | nil => exact absurd rfl hv
        | cons a t => rfl
    | charRange rs neg =>
      rw [constructibleA] at hcon
      rw [grammaticaGrammarSimplify]
      by_cases hcol : collapseShape rs neg = true
      · rcases rs with _ | ⟨e, _ | ⟨f, t⟩⟩
        · simp [collapseShape] at hcol
        · cases neg with
          | true =>
            rw [collapseShape] at hcol
            simp at hcol
          | false =>
            have h1 : e.start = e.stop := by
              rw [collapseShape] at hcol
              simpa using hcol
            have hnz : ¬ e.start % 256 = 0 := by
              intro h0
              rw [noNulCollapseA] at hnul
              simp [h1, h0] at hnul
              rw [h1] at h0
              exact hnul h0
            refine Or.inr ⟨.string [e.start % 256], ?_, ?_⟩
            · rw [char_range_simplify.eq_def]
              simp only [List.cons_ne_nil, if_false]
              rw [if_pos ?_, if_neg hnz]
              exact ⟨h1, by simp⟩
            · rw [simplifiedFormA]
              rfl
        · simp [collapseShape] at hcol
      · rw [Bool.not_eq_true] at hcol
        refine Or.inr ⟨.charRange rs neg,
          char_range_simplify_stable rs neg hcon hcol, ?_⟩
        rw [simplifiedFormA, hcon, hcol]
        rfl
    | derivationRule sym val =>
      rw [constructibleA] at hcon
      rw [noNulCollapseA] at hnul
      rw [grammaticaGrammarSimplify]
      have hlt : sizeA val < n := by
        rw [sizeA] at hsz
        omega
      rcases (ih (sizeA val) hlt).2 val (Nat.le_refl _) hcon hnul with
        h | ⟨y, hy, hsfy⟩
      · exact Or.inl (by rw [h]; rfl)
      · refine Or.inr ⟨.derivationRule sym y, by rw [hy]; rfl, ?_⟩
        rw [simplifiedFormA]
        exact hsfy
    | grammar cs q =>
      rw [constructibleA] at hcon
      simp only [Bool.and_eq_true] at hcon
      rw [noNulCollapseA] at hnul
      have hchild : ∀ x ∈ simplifySubexprs cs, simplifiedFormA x = true := by
        intro x hx
        obtain ⟨g0, hg0, hg0x⟩ := simplifySubexprs_mem cs x hx
        have hlt : sizeA g0 < n := by
          have h1 := sizeA_le_of_mem cs g0 hg0
          rw [sizeA] at hsz
          omega
        rcases (ih (sizeA g0) hlt).2 g0 (Nat.le_refl _)
          ((constructibleAList_iff cs).mp hcon.2 g0 hg0)
          ((noNulCollapseAList_iff cs).mp hnul g0 hg0) with
          h | ⟨y, hy, hsfy⟩
        · rw [h] at hg0x
          cases hg0x
        · rw [hy] at hg0x
          injection hg0x with h1
          exact h1 ▸ hsfy
      by_cases hscs : simplifySubexprs cs = []
      · exact Or.inl (by rw [simplify_grammar_eq, if_pos hscs])
      · obtain ⟨hm_sf, hm_nadj, hm_ne⟩ :=
          (mergeAdjPreserve (simplifySubexprs cs).length).1
            (simplifySubexprs cs) (Nat.le_refl _) hchild
        rcases hm : grammaticaMergeAdjacentStrings (simplifySubexprs cs)
          with _ | ⟨x, _ | ⟨z, t⟩⟩
        · exact absurd hm (hm_ne hscs)
        · by_cases hq1 : q.min = 1 ∧ q.max = 1
          · refine Or.inr ⟨x, ?_, hm_sf x (by rw [hm]; simp)⟩
            rw [simplify_grammar_eq, if_neg hscs, hm]
            simp only []
            rw [if_pos hq1]
          · refine Or.inr ⟨.grammar [x] q, ?_, ?_⟩
            · rw [simplify_grammar_eq, if_neg hscs, hm]
              simp only []
              rw [if_neg hq1, grammaticaGrammarCreate, if_pos hcon.1]
            · have hE : (q.min == 1 && q.max == 1) = false := by
                rcases Bool.eq_false_or_eq_true
                    (q.min == 1 && q.max == 1) with h | h
                · simp at h
                  exact absurd h hq1
                · exact h
              rw [simplifiedFormA]
              simp only [Bool.and_eq_true]
              refine ⟨⟨⟨⟨hcon.1, rfl⟩, ?_⟩, noAdjacentStrings_singleton x⟩,
                ?_⟩
              · exact (simplifiedFormAList_iff [x]).mpr
                  (fun y hy => by
                    rcases List.mem_singleton.mp hy with rfl
                    exact hm_sf y (by rw [hm]; simp))
              · simp [hE]
        · refine Or.inr ⟨.grammar (x :: z :: t) q, ?_, ?_⟩
          · rw [simplify_grammar_eq, if_neg hscs, hm]
            simp only []
            rw [grammaticaGrammarCreate, if_pos hcon.1]
          · rw [simplifiedFormA]
            simp only [Bool.and_eq_true]
            refine ⟨⟨⟨⟨hcon.1, rfl⟩, ?_⟩, by rw [← hm]; exact hm_nadj⟩,
              ?_⟩
            · exact (simplifiedFormAList_iff _).mpr
                (fun y hy => hm_sf y (by rw [hm]; exact hy))
            · simp only [List.length_cons, Bool.not_eq_true']
              have hlen : (t.length + 1 + 1 == 1) = false := by
                rw [beq_eq_false_iff_ne]
                omega
              rw [hlen]
              rfl
    | or cs q =>
      rw [constructibleA] at hcon
      simp only [Bool.and_eq_true] at hcon
      rw [noNulCollapseA] at hnul
      have hchild : ∀ x ∈ orSimplifyKept [] cs,
          simplifiedFormA x = true := by
        intro x hx
        rcases orSimplifyKept_mem cs [] x hx with h | ⟨g0, hg0, hg0x⟩
        · cases h
        · have hlt : sizeA g0 < n := by
            have h1 := sizeA_le_of_mem cs g0 hg0
            rw [sizeA] at hsz
            omega
          rcases (ih (sizeA g0) hlt).2 g0 (Nat.le_refl _)
            ((constructibleAList_iff cs).mp hcon.2 g0 hg0)
            ((noNulCollapseAList_iff cs).mp hnul g0 hg0) with
            h | ⟨y, hy, hsfy⟩
          · rw [h] at hg0x
            cases hg0x
          · rw [hy] at hg0x
            injection hg0x with h1
            exact h1 ▸ hsfy
      have hdistinct : pairwiseDistinctA (orSimplifyKept [] cs) = true :=
        orSimplifyKept_distinct cs [] rfl
      rcases hk : orSimplifyKept [] cs with _ | ⟨x, _ | ⟨z, t⟩⟩
      · exact Or.inl (by rw [simplify_or_eq, hk])
      · by_cases hq1 : q.min = 1 ∧ q.max = 1
        · refine Or.inr ⟨x, ?_, hchild x (by rw [hk]; simp)⟩
          rw [simplify_or_eq, hk]
          simp only []
          rw [if_pos hq1]
        · refine Or.inr ⟨.or [x] q, ?_, ?_⟩
          · rw [simplify_or_eq, hk]
            simp only []
            rw [if_neg hq1, grammaticaOrCreate, if_pos hcon.1]
          · have hE : (q.min == 1 && q.max == 1) = false := by
              rcases Bool.eq_false_or_eq_true
                  (q.min == 1 && q.max == 1) with h | h
              · simp at h
                exact absurd h hq1
              · exact h
            rw [simplifiedFormA]
            simp only [Bool.and_eq_true]
            refine ⟨⟨⟨⟨hcon.1, rfl⟩, ?_⟩, ?_⟩, ?_⟩
            · exact (simplifiedFormAList_iff [x]).mpr
                (fun y hy => by
                  rcases List.mem_singleton.mp hy with rfl
                  exact hchild y (by rw [hk]; simp))
            · rw [pairwiseDistinctA, pairwiseDistinctA]
              simp
            · simp [hE]
      · refine Or.inr ⟨.or (x :: z :: t) q, ?_, ?_⟩
        · rw [simplify_or_eq, hk]
          simp only []
          rw [grammaticaOrCreate, if_pos hcon.1]
        · rw [simplifiedFormA]
          simp only [Bool.and_eq_true]
          refine ⟨⟨⟨⟨hcon.1, rfl⟩, ?_⟩, by rw [← hk]; exact hdistinct⟩, ?_⟩
          · exact (simplifiedFormAList_iff _).mpr
              (fun y hy => hchild y (by rw [hk]; exact hy))
          · simp only [List.length_cons, Bool.not_eq_true']
            have hlen : (t.length + 1 + 1 == 1) = false := by
              rw [beq_eq_false_iff_ne]
              omega
            rw [hlen]
            rfl

/-- C6 counterexample: the claim as stated fails.  The constructible tree
CharRange([(0,0)], negate=false) — grammaticaCharRangeCreate accepts it —
simplifies to StringLiteral("") because char_range_simplify builds the
literal from the char cast of the uint32_t code point and the zero byte
terminates the C string immediately; simplifying again returns empty
(string_simplify drops empty literals), so simplify∘simplify disagrees
with simplify on it. -/
theorem c6_counterexample :
    grammaticaCharRangeCreate [⟨0, 0⟩] false =
      some (.charRange [⟨0, 0⟩] false) ∧
    grammaticaGrammarSimplify (.charRange [⟨0, 0⟩] false) =
      some (.string []) ∧
    (grammaticaGrammarSimplify (.charRange [⟨0, 0⟩] false)).bind
      grammaticaGrammarSimplify = none := by
  have h2 : grammaticaGrammarSimplify (.charRange [⟨0, 0⟩] false) =
      some (.string []) := by
    rw [grammaticaGrammarSimplify]
    decide
  refine ⟨by decide, h2, ?_⟩
  rw [h2]
  show grammaticaGrammarSimplify (.string []) = none
  rw [grammaticaGrammarSimplify]
  rfl

/-- C6 (amended): for every constructible grammar tree x — every CharRange
subtree holding a list grammaticaCharRangeCreate can have stored and every
quantifier valid — that moreover has no non-negated single-entry
single-character CharRange subtree whose code point is 0 modulo 256 (the
char cast of such a code point is the NUL byte, the counterexample above),
applying simplify twice gives a result structurally equal to applying it
once, both sides returning the empty outcome also counting as agreement:
simplify (simplify x) = simplify x. -/
theorem c6_simplify_idempotence (x : GrammaticaGrammar)
    (h1 : constructibleA x = true) (h2 : noNulCollapseA x = true) :
    (grammaticaGrammarSimplify x).bind grammaticaGrammarSimplify =
      grammaticaGrammarSimplify x := by
  rcases (simplifyA_aux (sizeA x)).2 x (Nat.le_refl _) h1 h2 with
    h | ⟨y, hy, hsf⟩
  · rw [h]
    rfl
  · rw [hy]
    show grammaticaGrammarSimplify y = some y
    exact (simplifyA_aux (sizeA y)).1 y (Nat.le_refl _) hsf

/-- Witness for C6 at the concrete input StringLiteral("a"). -/
theorem c6_simplify_idempotence_witness :
    (grammaticaGrammarSimplify (.string [97])).bind
      grammaticaGrammarSimplify =
      grammaticaGrammarSimplify (.string [97]) :=
  c6_simplify_idempotence (.string [97]) (by simp [constructibleA])
    (by simp [noNulCollapseA])

end Spec2Proof
